import Mathlib

/-!
hw1.c : matrix inversion by double Gram-Schmidt.

A shallow embedding of `src/hw1/hw1.c` and proofs about it.

Modelling conventions.

* A `double *` buffer is a map from flat index to value (`Buf K`); the value type `K`
  is any linearly ordered field, so that the definitions run on `ℚ`, and the theorems
  about exact real arithmetic take `K = ℝ`.
* `sqrt` from `math.h` is passed as a parameter (`Real.sqrt` in the theorems).
* `int` indices and sizes are natural numbers: signed overflow of `n * n` is undefined
  in C and lies outside the model.
* `for (i = 0; i < n; ++i)` is `forLoop n body`; a loop whose body may `return` is
  `forReturn n body`.
* The only operation that leaves the real numbers is the division in `normalize`.
  A division by zero (IEEE: NaN or an infinity stored in the buffers) is `none`;
  the C function has no error channel, it stores the non-finite values and goes on.
* `malloc` yields a buffer whose contents are indeterminate; every cell the program
  reads is written first, and the fresh buffer is modelled as all zero.
-/

namespace Hw1

/-- A flat buffer of values (`double *`), addressed by flat index. -/
abbrev Buf (K : Type) := Nat → K

/-- The loop `for (i = 0; i < n; ++i) s = body i s`. -/
def forLoop {σ : Type} : Nat → (Nat → σ → σ) → σ → σ
  | 0, _, s => s
  | k + 1, body, s => body k (forLoop k body s)

/-- The loop `for (i = 0; i < n; ++i)` whose body may leave the real numbers (`none`). -/
def forLoopM {σ : Type} : Nat → (Nat → σ → Option σ) → σ → Option σ
  | 0, _, s => some s
  | k + 1, body, s => (forLoopM k body s).bind (body k)

/-- The loop `for (i = 0; i < n; ++i)` whose body may `return r` (`some r`): the value
returned by the first iteration that returns, `none` when the loop runs to its end. -/
def forReturn {ρ : Type} : Nat → (Nat → Option ρ) → Option ρ
  | 0, _ => none
  | k + 1, body =>
    match forReturn k body with
    | some r => some r
    | none => body k

/-- A fresh allocation (`malloc`). -/
def malloc {K : Type} [Zero K] : Buf K := fun _ => 0

/-- Division of doubles: `none` when the divisor is zero (NaN or an infinity in IEEE). -/
def fdiv {K : Type} [LinearOrderedField K] (x y : K) : Option K :=
  if y = 0 then none else some (x / y)

section Embedding

variable {K : Type} [LinearOrderedField K]

/-- hw1.c:220 `a[i * n + j] = newVal`. -/
def setEntry (a : Buf K) (n i j : Nat) (newVal : K) : Buf K :=
  Function.update a (i * n + j) newVal

/-- hw1.c:225 `return a[i * n + j]`. -/
def getEntry (a : Buf K) (n i j : Nat) : K :=
  a (i * n + j)

/-- hw1.c:212 copies the first `n * n` cells of `src` into `dst`. -/
def copy_into (src dst : Buf K) (n : Nat) : Buf K :=
  forLoop (n * n) (fun i dst => Function.update dst i (src i)) dst

/-- hw1.c:190 a fresh vector whose first `n` cells are set to zero. -/
def generateZeroVector (n : Nat) : Buf K :=
  forLoop n (fun i v => Function.update v i 0) malloc

/-- hw1.c:176 writes the identity matrix into `m`. -/
def assignIdentityMatrix (m : Buf K) (n : Nat) : Buf K :=
  forLoop n (fun i m =>
    forLoop n (fun j m =>
      if i = j then setEntry m n i j 1 else setEntry m n i j 0) m) m

/-- hw1.c:129 dot product of columns `col1` and `col2` of `m`. -/
def dotProductInMatrix (m : Buf K) (n col1 col2 : Nat) : K :=
  forLoop n (fun i sum => sum + getEntry m n i col1 * getEntry m n i col2) 0

/-- hw1.c:139 dot product of row `row` of `m1` and column `col` of `m2`. -/
def dotProductTwoMatrices (m1 : Buf K) (row : Nat) (m2 : Buf K) (col n : Nat) : K :=
  forLoop n (fun i sum => sum + getEntry m1 n row i * getEntry m2 n i col) 0

/-- hw1.c:149 the transpose, in a fresh buffer. The result is the pair of the new
matrix and the argument buffer `m` as the call leaves it. -/
def transposeMatrix (m : Buf K) (n : Nat) : Buf K × Buf K :=
  let newMat : Buf K := malloc
  let newMat := forLoop n (fun i newMat =>
    forLoop n (fun j newMat => setEntry newMat n i j (getEntry m n j i)) newMat) newMat
  (newMat, m)

/-- hw1.c:161 the product, assigned to the first matrix. The result is the pair of the
two argument buffers `m1`, `m2` as the call leaves them. -/
def matrixMultiply (m1 m2 : Buf K) (n : Nat) : Buf K × Buf K :=
  let finalMat : Buf K := malloc
  let finalMat := forLoop n (fun i finalMat =>
    forLoop n (fun j finalMat =>
      setEntry finalMat n j i (dotProductTwoMatrices m1 j m2 i n)) finalMat) finalMat
  (copy_into finalMat m1 n, m2)

/-- hw1.c:121 `subtract[i] += dp * u[i, col]` for every row `i`. -/
def updateSubtractVector (subtract u : Buf K) (n : Nat) (dp : K) (col : Nat) : Buf K :=
  forLoop n (fun i subtract =>
    Function.update subtract i (subtract i + dp * getEntry u n i col)) subtract

/-- hw1.c:110 divides column `col` of `u` and of `b` by the norm of column `col` of `u`.
The norm is computed once, before the loop. -/
def normalize (sqrt : K → K) (u b : Buf K) (n col : Nat) : Option (Buf K × Buf K) :=
  let size := sqrt (dotProductInMatrix u n col col)
  forLoopM n (fun i s =>
    (fdiv (getEntry s.1 n i col) size).bind fun x =>
    let u := setEntry s.1 n i col x
    (fdiv (getEntry s.2 n i col) size).bind fun y =>
    let b := setEntry s.2 n i col y
    some (u, b)) (u, b)

/-- hw1.c:84 one Gram-Schmidt pass on column `col`. -/
def orthogonalize (sqrt : K → K) (u b : Buf K) (n col : Nat) : Option (Buf K × Buf K) :=
  let subtract : Buf K := generateZeroVector n
  let subtractT : Buf K := generateZeroVector n
  let acc := forLoop col (fun i (acc : Buf K × Buf K) =>
    let dp := dotProductInMatrix u n i col
    (updateSubtractVector acc.1 u n dp i, updateSubtractVector acc.2 b n dp i))
    (subtract, subtractT)
  let subtract := acc.1
  let subtractT := acc.2
  let s := forLoop n (fun i (s : Buf K × Buf K) =>
    let u := setEntry s.1 n i col (getEntry s.1 n i col - subtract i)
    let b := setEntry s.2 n i col (getEntry s.2 n i col - subtractT i)
    (u, b)) (u, b)
  normalize sqrt s.1 s.2 n col

/-- hw1.c:64 the inverse engine: on return `u` holds the orthonormalised columns of `a`
and `b` the computed inverse. The result is the pair `(u, b)` of the output buffers. -/
def inv_double_gs (sqrt : K → K) (a : Buf K) (n : Nat) (u b : Buf K) :
    Option (Buf K × Buf K) :=
  let b := assignIdentityMatrix b n
  let u := copy_into a u n
  (forLoopM n (fun i s =>
    (orthogonalize sqrt s.1 s.2 n i).bind fun s =>
    orthogonalize sqrt s.1 s.2 n i) (u, b)).bind fun s =>
  let u := s.1
  let b := s.2
  let uTranspose := (transposeMatrix u n).1
  let b := (matrixMultiply b uTranspose n).1
  some (u, b)

/-- hw1.c:253 returns 1 when the columns of `m` are orthonormal up to `precision`. -/
def checkOrthogonal (m : Buf K) (n : Nat) (precision : K) : Int :=
  match forReturn n (fun i =>
    let dp := dotProductInMatrix m n i i
    if dp > 1 + precision ∨ dp < 1 - precision then some 0
    else forReturn i (fun j =>
      let dp := dotProductInMatrix m n i j
      if dp > 0 + precision ∨ dp < 0 - precision then some 0 else none)) with
  | some r => r
  | none => 1

/-- hw1.c:275 returns 1 when the first `n * n` cells of `m1` and `m2` agree up to
`precision`. -/
def checkEqualMatrix (m1 m2 : Buf K) (n : Nat) (precision : K) : Int :=
  match forReturn (n * n) (fun i =>
    let v1 := m1 i
    let v2 := m2 i
    if v1 > v2 + precision ∨ v1 < v2 - precision then some 0 else none) with
  | some r => r
  | none => 1

/-- The `n × n` matrix stored row-major in the first `n * n` cells of a buffer. -/
def toMatrix (a : Buf K) (n : Nat) : Matrix (Fin n) (Fin n) K :=
  Matrix.of fun i j => getEntry a n i j

/-- Dot product of columns `i` and `j` of the matrix held in `m`, as a sum. -/
def colDot (m : Buf K) (n i j : Nat) : K :=
  ∑ r in Finset.range n, getEntry m n r i * getEntry m n r j

/-- Row `r` of column `col` of `x` after the combination of the columns before `col`
whose coefficients are the dot products of the columns of `u` with column `col` of `u`
has been subtracted. -/
def projCol (u x : Buf K) (n col r : Nat) : K :=
  getEntry x n r col - ∑ i in Finset.range col, colDot u n i col * getEntry x n r i

/-- The Euclidean norm of column `col` of `u` once the projections are subtracted. -/
def projNorm (sqrt : K → K) (u : Buf K) (n col : Nat) : K :=
  sqrt (∑ r in Finset.range n, projCol u u n col r * projCol u u n col r)

/-- Columns `0 .. k-1` of the matrix held in `u` are orthonormal. -/
def OrthoCols (u : Buf K) (n k : Nat) : Prop :=
  ∀ i j, i < k → j < k → colDot u n i j = if i = j then 1 else 0

/-- The loop invariant of `inv_double_gs` once `k` columns are processed: `u = a × b`,
`b` is upper triangular with a positive diagonal, and the first `k` columns of `u` are
orthonormal. -/
structure GsInv (a u b : Buf K) (n k : Nat) : Prop where
  prod : ∀ r c, r < n → c < n →
    getEntry u n r c = ∑ j in Finset.range n, getEntry a n r j * getEntry b n j c
  upper : ∀ r c, r < n → c < n → c < r → getEntry b n r c = 0
  diag : ∀ c, c < n → 0 < getEntry b n c c
  ortho : OrthoCols u n k

/-- The matrix held in `m` is diagonal, with diagonal `d`. -/
def IsDiag (m : Buf K) (n : Nat) (d : Nat → K) : Prop :=
  ∀ r c, r < n → c < n → getEntry m n r c = if r = c then d r else 0

/-- The matrix `diag(2, 2)`, `n = 2`, row-major. -/
def diag22 : Buf K := fun k => if k = 0 ∨ k = 3 then 2 else 0

/-- The matrix with rows `(0, 1)` and `(0, 1)`, `n = 2`: its column 0 is zero. -/
def zeroCol2 : Buf K := fun k => if k = 1 ∨ k = 3 then 1 else 0

/-- The matrix with rows `(3, 1)` and `(4, 2)`, `n = 2`. -/
def ex3142 : Buf K := fun k =>
  if k = 0 then 3 else if k = 1 then 1 else if k = 2 then 4 else if k = 3 then 2 else 0

/-- The matrix with rows `(1, 0, 1)`, `(0, 1, 2)`, `(0, 0, 2)`, `n = 3`: its columns 0
and 1 are orthonormal, its column 2 has dot products 1 and 2 with them. -/
def gsU3 : Buf K := fun k =>
  if k = 0 then 1 else if k = 2 then 1 else if k = 4 then 1 else if k = 5 then 2
  else if k = 8 then 2 else 0

/-- The matrix with rows `(1, 1, 1)`, `(0, 1, 1)`, `(0, 0, 1)`, `n = 3`. -/
def gsB3 : Buf K := fun k =>
  if k = 0 then 1 else if k = 1 then 1 else if k = 2 then 1 else if k = 4 then 1
  else if k = 5 then 1 else if k = 8 then 1 else 0

/-- The state of the column loop of `inv_double_gs` (hw1.c:70-74) after its first `k`
iterations, started in the state `s = (u, b)`: two passes on each of the columns
`0 .. k-1`. -/
def columnLoop (sqrt : K → K) (n k : Nat) (s : Buf K × Buf K) : Option (Buf K × Buf K) :=
  forLoopM k (fun i s =>
    (orthogonalize sqrt s.1 s.2 n i).bind fun s =>
    orthogonalize sqrt s.1 s.2 n i) s

/-- A sequence of calls `orthogonalize(u, b, n, col)`, one for each `col` of the list, in
order, started in the state `s = (u, b)`. -/
def orthogonalizeCalls (sqrt : K → K) (n : Nat) :
    List Nat → Buf K × Buf K → Option (Buf K × Buf K)
  | [], s => some s
  | col :: cols, s => (orthogonalize sqrt s.1 s.2 n col).bind (orthogonalizeCalls sqrt n cols)

/-- The single-pass variant the specification compares the engine with: `inv_double_gs`
with `orthogonalize` called once per column instead of twice. It is not part of hw1.c. -/
def inv_single_gs (sqrt : K → K) (a : Buf K) (n : Nat) (u b : Buf K) :
    Option (Buf K × Buf K) :=
  let b := assignIdentityMatrix b n
  let u := copy_into a u n
  (forLoopM n (fun i s => orthogonalize sqrt s.1 s.2 n i) (u, b)).bind fun s =>
  let u := s.1
  let b := s.2
  let uTranspose := (transposeMatrix u n).1
  let b := (matrixMultiply b uTranspose n).1
  some (u, b)

end Embedding

/-!
Memory accesses.

The accesses `inv_double_gs` performs, in program order. No branch or loop bound of
`inv_double_gs` and of the functions it calls depends on the values stored (a division
by zero does not stop the program either), so the accesses are a function of `n` and of
the column index alone. Each `_trace` function follows the body of the function of
hw1.c it is named after, statement by statement.
-/

/-- The buffers `inv_double_gs` and the functions it calls work on: the arguments `a`,
`u`, `b`, the transpose and the product allocated at hw1.c:151 and hw1.c:163, and the
two scratch vectors allocated at hw1.c:88-89. -/
inductive BufId
  | argA | argU | argB | uTransposeBuf | finalMatBuf | subtractBuf | subtractTBuf
  deriving DecidableEq

/-- The number of cells of a buffer: `n` for the scratch vectors (`malloc(n * sizeof(double))`),
`n * n` for the matrices. -/
def BufId.len (n : Nat) : BufId → Nat
  | BufId.subtractBuf => n
  | BufId.subtractTBuf => n
  | _ => n * n

/-- One memory access: `get m i j` is `getEntry(m, n, i, j)`, `set m i j` is
`setEntry(m, n, i, j, v)`, both on the cell `m[i * n + j]`; `load m k` reads `m[k]` and
`store m k` writes `m[k]`. -/
inductive Access
  | get (m : BufId) (i j : Nat)
  | set (m : BufId) (i j : Nat)
  | load (m : BufId) (k : Nat)
  | store (m : BufId) (k : Nat)
  deriving DecidableEq

/-- The access is in range: row and column below `n` and the flat index inside the
buffer, for `getEntry` and `setEntry`; the index inside the buffer, for a direct access. -/
def Access.InRange (n : Nat) : Access → Prop
  | Access.get m i j => i < n ∧ j < n ∧ i * n + j < m.len n
  | Access.set m i j => i < n ∧ j < n ∧ i * n + j < m.len n
  | Access.load m k => k < m.len n
  | Access.store m k => k < m.len n

/-- The accesses of `for (i = 0; i < n; ++i) body`: those of the iterations, in order. -/
def loopTrace (n : Nat) (body : Nat → List Access) : List Access :=
  forLoop n (fun i t => t ++ body i) []

/-- hw1.c:212 `to[i] = from[i]` for `i < n * n`. -/
def copy_into_trace (src dst : BufId) (n : Nat) : List Access :=
  loopTrace (n * n) fun i => [Access.load src i, Access.store dst i]

/-- hw1.c:190 `v[i] = 0.0` for `i < n`. -/
def generateZeroVector_trace (v : BufId) (n : Nat) : List Access :=
  loopTrace n fun i => [Access.store v i]

/-- hw1.c:176 one `setEntry(m, n, i, j, _)` for every `i, j < n`. -/
def assignIdentityMatrix_trace (m : BufId) (n : Nat) : List Access :=
  loopTrace n fun i => loopTrace n fun j => [Access.set m i j]

/-- hw1.c:129 `getEntry(m, n, i, col1) * getEntry(m, n, i, col2)` for `i < n`. -/
def dotProductInMatrix_trace (m : BufId) (n col1 col2 : Nat) : List Access :=
  loopTrace n fun i => [Access.get m i col1, Access.get m i col2]

/-- hw1.c:139 `getEntry(m1, n, row, i) * getEntry(m2, n, i, col)` for `i < n`. -/
def dotProductTwoMatrices_trace (m1 : BufId) (row : Nat) (m2 : BufId) (col n : Nat) :
    List Access :=
  loopTrace n fun i => [Access.get m1 row i, Access.get m2 i col]

/-- hw1.c:149 `setEntry(newMat, n, i, j, getEntry(m, n, j, i))` for `i, j < n`. -/
def transposeMatrix_trace (m newMat : BufId) (n : Nat) : List Access :=
  loopTrace n fun i => loopTrace n fun j => [Access.get m j i, Access.set newMat i j]

/-- hw1.c:161 `setEntry(finalMat, n, j, i, dotProductTwoMatrices(m1, j, m2, i, n))` for
`i, j < n`, then `copy_into(finalMat, m1, n)`. -/
def matrixMultiply_trace (m1 m2 finalMat : BufId) (n : Nat) : List Access :=
  (loopTrace n fun i => loopTrace n fun j =>
    dotProductTwoMatrices_trace m1 j m2 i n ++ [Access.set finalMat j i])
  ++ copy_into_trace finalMat m1 n

/-- hw1.c:121 `subtract[i] += dp * getEntry(u, n, i, col)` for `i < n`. -/
def updateSubtractVector_trace (subtract u : BufId) (n col : Nat) : List Access :=
  loopTrace n fun i =>
    [Access.load subtract i, Access.get u i col, Access.store subtract i]

/-- hw1.c:110 the dot product, then for `i < n` the two
`setEntry(_, n, i, col, getEntry(_, n, i, col) / size)`. -/
def normalize_trace (u b : BufId) (n col : Nat) : List Access :=
  dotProductInMatrix_trace u n col col
  ++ loopTrace n fun i =>
    [Access.get u i col, Access.set u i col, Access.get b i col, Access.set b i col]

/-- hw1.c:84 the two zero vectors, the accumulation loop over `i < col`, the subtraction
loop over `i < n`, and `normalize`. -/
def orthogonalize_trace (u b : BufId) (n col : Nat) : List Access :=
  generateZeroVector_trace BufId.subtractBuf n
  ++ generateZeroVector_trace BufId.subtractTBuf n
  ++ (loopTrace col fun i =>
    dotProductInMatrix_trace u n i col
    ++ updateSubtractVector_trace BufId.subtractBuf u n i
    ++ updateSubtractVector_trace BufId.subtractTBuf b n i)
  ++ (loopTrace n fun i =>
    [Access.get u i col, Access.load BufId.subtractBuf i, Access.set u i col,
     Access.get b i col, Access.load BufId.subtractTBuf i, Access.set b i col])
  ++ normalize_trace u b n col

/-- hw1.c:64 the accesses of `inv_double_gs(a, n, u, b)`. -/
def inv_double_gs_trace (a u b : BufId) (n : Nat) : List Access :=
  assignIdentityMatrix_trace b n
  ++ copy_into_trace a u n
  ++ (loopTrace n fun i => orthogonalize_trace u b n i ++ orthogonalize_trace u b n i)
  ++ transposeMatrix_trace u BufId.uTransposeBuf n
  ++ matrixMultiply_trace b BufId.uTransposeBuf BufId.finalMatBuf n

set_option linter.unusedSectionVars false

section Basic
variable {K : Type} [LinearOrderedField K]

theorem flat_inj {n i j i' j' : Nat} (hj : j < n) (hj' : j' < n) :
    i * n + j = i' * n + j' ↔ i = i' ∧ j = j' := by
  constructor
  · intro h
    have h1 : (j + i * n) / n = (j' + i' * n) / n := by rw [Nat.add_comm j, Nat.add_comm j', h]
    have h2 : (j + i * n) % n = (j' + i' * n) % n := by rw [Nat.add_comm j, Nat.add_comm j', h]
    have hn : 0 < n := Nat.lt_of_le_of_lt (Nat.zero_le _) hj
    rw [Nat.add_mul_div_right _ _ hn, Nat.add_mul_div_right _ _ hn,
      Nat.div_eq_of_lt hj, Nat.div_eq_of_lt hj'] at h1
    rw [Nat.add_mul_mod_self_right, Nat.add_mul_mod_self_right,
      Nat.mod_eq_of_lt hj, Nat.mod_eq_of_lt hj'] at h2
    omega
  · rintro ⟨rfl, rfl⟩; rfl

theorem flat_lt {n i j : Nat} (hi : i < n) (hj : j < n) : i * n + j < n * n := by
  calc i * n + j < i * n + n := Nat.add_lt_add_left hj _
    _ = (i + 1) * n := by ring
    _ ≤ n * n := Nat.mul_le_mul_right n hi

theorem flat_split {n k : Nat} (hk : k < n * n) :
    ∃ i j, i < n ∧ j < n ∧ k = i * n + j := by
  have hn : 0 < n := by
    rcases Nat.eq_zero_or_pos n with h | h
    · subst h; simp at hk
    · exact h
  refine ⟨k / n, k % n, ?_, Nat.mod_lt _ hn, ?_⟩
  · exact Nat.div_lt_of_lt_mul hk
  · rw [Nat.mul_comm]; exact (Nat.div_add_mod k n).symm

theorem getEntry_setEntry (a : Buf K) {n i j i' j' : Nat} (v : K) (hj : j < n) (hj' : j' < n) :
    getEntry (setEntry a n i j v) n i' j' = if i' = i ∧ j' = j then v else getEntry a n i' j' := by
  unfold getEntry setEntry
  rw [Function.update_apply]
  simp only [flat_inj hj' hj]

theorem forLoop_succ {σ : Type} (k : Nat) (body : Nat → σ → σ) (s : σ) :
    forLoop (k + 1) body s = body k (forLoop k body s) := rfl

theorem forLoop_zero {σ : Type} (body : Nat → σ → σ) (s : σ) :
    forLoop 0 body s = s := rfl

theorem forLoop_prod {σ τ : Type} (n : Nat) (F : Nat → σ → σ) (G : Nat → τ → τ) (s : σ) (t : τ) :
    forLoop n (fun i (p : σ × τ) => (F i p.1, G i p.2)) (s, t) = (forLoop n F s, forLoop n G t) := by
  induction n with
  | zero => rfl
  | succ k ih => simp only [forLoop_succ, ih]

/-- A loop that adds a term per iteration computes the sum of the terms. -/
theorem forLoop_sum (n : Nat) (f : Nat → K) (z : K) :
    forLoop n (fun i sum => sum + f i) z = z + ∑ i in Finset.range n, f i := by
  induction n with
  | zero => simp [forLoop]
  | succ k ih => rw [forLoop_succ, ih, Finset.sum_range_succ, add_assoc]

theorem dotProductInMatrix_eq (m : Buf K) (n c1 c2 : Nat) :
    dotProductInMatrix m n c1 c2 = ∑ r in Finset.range n, getEntry m n r c1 * getEntry m n r c2 := by
  unfold dotProductInMatrix
  rw [forLoop_sum, zero_add]

theorem dotProductTwoMatrices_eq (m1 m2 : Buf K) (n row col : Nat) :
    dotProductTwoMatrices m1 row m2 col n
      = ∑ k in Finset.range n, getEntry m1 n row k * getEntry m2 n k col := by
  unfold dotProductTwoMatrices
  rw [forLoop_sum, zero_add]

theorem copy_into_apply (src dst : Buf K) (n k : Nat) :
    copy_into src dst n k = if k < n * n then src k else dst k := by
  unfold copy_into
  generalize n * n = c
  induction c with
  | zero => simp [forLoop]
  | succ c ih =>
    rw [forLoop_succ, Function.update_apply, ih]
    by_cases h1 : k = c
    · subst h1; simp
    · by_cases h2 : k < c
      · simp [h1, h2, Nat.lt_succ_of_lt h2]
      · have : ¬ k < c + 1 := by omega
        simp [h1, h2, this]

theorem getEntry_copy_into (src dst : Buf K) {n i j : Nat} (hi : i < n) (hj : j < n) :
    getEntry (copy_into src dst n) n i j = getEntry src n i j := by
  unfold getEntry
  rw [copy_into_apply, if_pos (flat_lt hi hj)]

/-- Inner loop over the columns `j < c` of row `i`. -/
theorem rowLoop_get (g : Nat → K) (m : Buf K) {n i c r j : Nat} (hc : c ≤ n) (hj : j < n) :
    getEntry (forLoop c (fun j m => setEntry m n i j (g j)) m) n r j
      = if r = i ∧ j < c then g j else getEntry m n r j := by
  induction c with
  | zero => simp [forLoop]
  | succ c ih =>
    rw [forLoop_succ, getEntry_setEntry _ _ (by omega) hj, ih (by omega)]
    by_cases h1 : r = i
    · by_cases h2 : j = c
      · subst h2; simp [h1]
      · have h3 : j < c + 1 ↔ j < c := by omega
        simp [h1, h2, h3]
    · simp [h1]

/-- Inner loop over the rows `r < c` of column `i`, each cell updated from its own value. -/
theorem colLoop_get (g : Nat → K → K) (m : Buf K) {n i : Nat} (hi : i < n) (c : Nat) :
    ∀ r j, j < n →
    getEntry (forLoop c (fun j m => setEntry m n j i (g j (getEntry m n j i))) m) n r j
      = if j = i ∧ r < c then g r (getEntry m n r j) else getEntry m n r j := by
  induction c with
  | zero => intro r j _; simp [forLoop]
  | succ c ih =>
    intro r j hj
    rw [forLoop_succ, getEntry_setEntry _ _ hi hj, ih r j hj, ih c i hi]
    by_cases h1 : j = i
    · by_cases h2 : r = c
      · subst h2; subst h1; simp
      · have h3 : r < c + 1 ↔ r < c := by omega
        simp [h1, h2, h3]
    · simp [h1]

end Basic

section MatrixOps
variable {K : Type} [LinearOrderedField K]

/-- Two nested loops, rows outside, writing `g i j` to cell `(i, j)`. -/
theorem rowsLoop_get (g : Nat → Nat → K) (m : Buf K) {n r j : Nat} (c : Nat) (hj : j < n) :
    getEntry (forLoop c (fun i m => forLoop n (fun j m => setEntry m n i j (g i j)) m) m) n r j
      = if r < c then g r j else getEntry m n r j := by
  induction c with
  | zero => simp [forLoop]
  | succ c ih =>
    rw [forLoop_succ, rowLoop_get _ _ (Nat.le_refl n) hj, ih]
    by_cases h1 : r = c
    · subst h1; simp [hj]
    · have h3 : r < c + 1 ↔ r < c := by omega
      simp [h1, h3]

/-- Two nested loops, columns outside, writing `g j i` to cell `(j, i)`. -/
theorem colsLoop_get (g : Nat → Nat → K) (m : Buf K) {n r j : Nat} (c : Nat) (hc : c ≤ n)
    (hj : j < n) :
    getEntry (forLoop c (fun i m => forLoop n (fun j m => setEntry m n j i (g j i)) m) m) n r j
      = if j < c ∧ r < n then g r j else getEntry m n r j := by
  induction c with
  | zero => simp [forLoop]
  | succ c ih =>
    rw [forLoop_succ]
    have hcn : c < n := by omega
    rw [colLoop_get (fun j _ => g j c) _ hcn n r j hj, ih (by omega)]
    by_cases h1 : j = c
    · subst h1; by_cases h2 : r < n <;> simp [h2]
    · have h3 : j < c + 1 ↔ j < c := by omega
      simp [h1, h3]

theorem getEntry_assignIdentityMatrix (m : Buf K) {n i j : Nat} (hi : i < n) (hj : j < n) :
    getEntry (assignIdentityMatrix m n) n i j = if i = j then 1 else 0 := by
  have h : assignIdentityMatrix m n
      = forLoop n (fun i m => forLoop n (fun j m =>
          setEntry m n i j (if i = j then (1 : K) else 0)) m) m := by
    unfold assignIdentityMatrix
    congr 1
    funext i m
    congr 1
    funext j m
    split <;> rfl
  rw [h, rowsLoop_get (fun i j => if i = j then (1 : K) else 0) m n hj, if_pos hi]

theorem getEntry_transposeMatrix (m : Buf K) {n i j : Nat} (hi : i < n) (hj : j < n) :
    getEntry (transposeMatrix m n).1 n i j = getEntry m n j i := by
  unfold transposeMatrix
  simp only
  rw [rowsLoop_get (fun i j => getEntry m n j i) malloc n hj, if_pos hi]

theorem getEntry_matrixMultiply (m1 m2 : Buf K) {n i j : Nat} (hi : i < n) (hj : j < n) :
    getEntry (matrixMultiply m1 m2 n).1 n i j
      = ∑ k in Finset.range n, getEntry m1 n i k * getEntry m2 n k j := by
  unfold matrixMultiply
  simp only
  rw [getEntry_copy_into _ _ hi hj,
    colsLoop_get (fun j i => dotProductTwoMatrices m1 j m2 i n) malloc n (Nat.le_refl n) hj,
    if_pos ⟨hj, hi⟩, dotProductTwoMatrices_eq]

theorem forReturn_eq_none {ρ : Type} (n : Nat) (body : Nat → Option ρ) :
    forReturn n body = none ↔ ∀ i, i < n → body i = none := by
  induction n with
  | zero => simp [forReturn]
  | succ k ih =>
    unfold forReturn
    cases h : forReturn k body with
    | some r =>
      simp only [false_iff, reduceCtorEq]
      intro hall
      have : forReturn k body = none := ih.mpr (fun i hi => hall i (Nat.lt_succ_of_lt hi))
      rw [h] at this
      cases this
    | none =>
      simp only
      constructor
      · intro hk i hi
        rcases Nat.lt_succ_iff_lt_or_eq.mp hi with h1 | h1
        · exact ih.mp h i h1
        · rw [h1]; exact hk
      · intro hall; exact hall k (Nat.lt_succ_self k)

/-- A loop whose body can only `return r` returns `r` whenever it returns. -/
theorem forReturn_const {ρ : Type} (n : Nat) (body : Nat → Option ρ) (r : ρ)
    (hb : ∀ i, i < n → body i = none ∨ body i = some r) :
    forReturn n body = none ∨ forReturn n body = some r := by
  induction n with
  | zero => left; rfl
  | succ k ih =>
    unfold forReturn
    rcases ih (fun i hi => hb i (Nat.lt_succ_of_lt hi)) with h | h
    · rw [h]; exact hb k (Nat.lt_succ_self k)
    · rw [h]; right; rfl

end MatrixOps

section Checks
variable {K : Type} [LinearOrderedField K]

/-- The dot product of two columns of the matrix held in a buffer. -/
theorem dot_comm (m : Buf K) (n i j : Nat) :
    (∑ r in Finset.range n, getEntry m n r i * getEntry m n r j)
      = ∑ r in Finset.range n, getEntry m n r j * getEntry m n r i :=
  Finset.sum_congr rfl (fun _ _ => mul_comm _ _)

theorem checkEqualMatrix_zero_or_one (m1 m2 : Buf K) (n : Nat) (p : K) :
    checkEqualMatrix m1 m2 n p = 1 ∨ checkEqualMatrix m1 m2 n p = 0 := by
  unfold checkEqualMatrix
  simp only
  rcases forReturn_const (n * n) (fun i =>
      if m1 i > m2 i + p ∨ m1 i < m2 i - p then some (0 : Int) else none) 0
      (fun i _ => by by_cases h : m1 i > m2 i + p ∨ m1 i < m2 i - p <;> simp [h]) with h | h
  · left; rw [h]
  · right; rw [h]

theorem checkEqualMatrix_eq_one_iff (m1 m2 : Buf K) (n : Nat) (p : K) :
    checkEqualMatrix m1 m2 n p = 1 ↔ ∀ k, k < n * n → |m1 k - m2 k| ≤ p := by
  have key : forReturn (n * n) (fun i =>
      if m1 i > m2 i + p ∨ m1 i < m2 i - p then some (0 : Int) else none) = none
      ↔ ∀ k, k < n * n → |m1 k - m2 k| ≤ p := by
    rw [forReturn_eq_none]
    refine forall_congr' (fun k => imp_congr_right (fun _ => ?_))
    rw [abs_sub_le_iff]
    by_cases h : m1 k > m2 k + p ∨ m1 k < m2 k - p
    · simp only [h, if_true, false_iff, reduceCtorEq]
      rintro ⟨h1, h2⟩
      rcases h with h | h <;> linarith
    · simp only [h, if_false, true_iff]
      push_neg at h
      constructor <;> linarith [h.1, h.2]
  rw [← key]
  unfold checkEqualMatrix
  simp only
  rcases forReturn_const (n * n) (fun i =>
      if m1 i > m2 i + p ∨ m1 i < m2 i - p then some (0 : Int) else none) 0
      (fun i _ => by by_cases h : m1 i > m2 i + p ∨ m1 i < m2 i - p <;> simp [h]) with h | h
  · rw [h]; simp
  · rw [h]; simp

/-- What the inner loop of `checkOrthogonal` looks at for column `i`. -/
theorem checkOrthogonal_inner (m : Buf K) (n i : Nat) (p : K) :
    forReturn i (fun j =>
      if dotProductInMatrix m n i j > 0 + p ∨ dotProductInMatrix m n i j < 0 - p
      then some (0 : Int) else none) = none
      ↔ ∀ j, j < i → -p ≤ dotProductInMatrix m n i j ∧ dotProductInMatrix m n i j ≤ p := by
  rw [forReturn_eq_none]
  refine forall_congr' (fun j => imp_congr_right (fun _ => ?_))
  by_cases h : dotProductInMatrix m n i j > 0 + p ∨ dotProductInMatrix m n i j < 0 - p
  · simp only [h, if_true, false_iff, reduceCtorEq]
    rintro ⟨h1, h2⟩
    rcases h with h | h <;> linarith
  · simp only [h, if_false, true_iff]
    push_neg at h
    constructor <;> linarith [h.1, h.2]

theorem checkOrthogonal_body_const (m : Buf K) (n : Nat) (p : K) (i : Nat) :
    (if dotProductInMatrix m n i i > 1 + p ∨ dotProductInMatrix m n i i < 1 - p
      then some (0 : Int)
      else forReturn i (fun j =>
        if dotProductInMatrix m n i j > 0 + p ∨ dotProductInMatrix m n i j < 0 - p
        then some (0 : Int) else none)) = none ∨
    (if dotProductInMatrix m n i i > 1 + p ∨ dotProductInMatrix m n i i < 1 - p
      then some (0 : Int)
      else forReturn i (fun j =>
        if dotProductInMatrix m n i j > 0 + p ∨ dotProductInMatrix m n i j < 0 - p
        then some (0 : Int) else none)) = some 0 := by
  by_cases h : dotProductInMatrix m n i i > 1 + p ∨ dotProductInMatrix m n i i < 1 - p
  · right; simp [h]
  · simp only [h, if_false]
    exact forReturn_const i _ 0 (fun j _ => by
      by_cases h' : dotProductInMatrix m n i j > 0 + p ∨ dotProductInMatrix m n i j < 0 - p
      · right; simp only [h', if_true]
      · left; simp only [h', if_false])

theorem checkOrthogonal_zero_or_one (m : Buf K) (n : Nat) (p : K) :
    checkOrthogonal m n p = 1 ∨ checkOrthogonal m n p = 0 := by
  unfold checkOrthogonal
  simp only
  rcases forReturn_const n _ 0 (fun i _ => checkOrthogonal_body_const m n p i) with h | h
  · left; rw [h]
  · right; rw [h]

/-- The test `checkOrthogonal` performs, as the code performs it (pairs `j < i` only). -/
theorem checkOrthogonal_eq_one_iff (m : Buf K) (n : Nat) (p : K) :
    checkOrthogonal m n p = 1 ↔
      ∀ i, i < n →
        (1 - p ≤ dotProductInMatrix m n i i ∧ dotProductInMatrix m n i i ≤ 1 + p) ∧
        ∀ j, j < i → -p ≤ dotProductInMatrix m n i j ∧ dotProductInMatrix m n i j ≤ p := by
  have key : forReturn n (fun i =>
      if dotProductInMatrix m n i i > 1 + p ∨ dotProductInMatrix m n i i < 1 - p
      then some (0 : Int)
      else forReturn i (fun j =>
        if dotProductInMatrix m n i j > 0 + p ∨ dotProductInMatrix m n i j < 0 - p
        then some (0 : Int) else none)) = none ↔
      ∀ i, i < n →
        (1 - p ≤ dotProductInMatrix m n i i ∧ dotProductInMatrix m n i i ≤ 1 + p) ∧
        ∀ j, j < i → -p ≤ dotProductInMatrix m n i j ∧ dotProductInMatrix m n i j ≤ p := by
    rw [forReturn_eq_none]
    refine forall_congr' (fun i => imp_congr_right (fun _ => ?_))
    by_cases h : dotProductInMatrix m n i i > 1 + p ∨ dotProductInMatrix m n i i < 1 - p
    · simp only [h, if_true, false_iff, reduceCtorEq]
      rintro ⟨⟨h1, h2⟩, _⟩
      rcases h with h | h <;> linarith
    · simp only [h, if_false]
      rw [checkOrthogonal_inner]
      push_neg at h
      constructor
      · intro h2; exact ⟨⟨h.2, h.1⟩, h2⟩
      · intro h2; exact h2.2
  rw [← key]
  unfold checkOrthogonal
  simp only
  rcases forReturn_const n _ 0 (fun i _ => checkOrthogonal_body_const m n p i) with h | h
  · rw [h]; simp
  · rw [h]; simp

end Checks

section Orthogonalize
variable {K : Type} [LinearOrderedField K]

theorem dotProductInMatrix_eq_colDot (m : Buf K) (n i j : Nat) :
    dotProductInMatrix m n i j = colDot m n i j :=
  dotProductInMatrix_eq m n i j

theorem forLoopM_some {σ : Type} (n : Nat) (f : Nat → σ → σ) (s : σ) :
    forLoopM n (fun i s => some (f i s)) s = some (forLoop n f s) := by
  induction n with
  | zero => rfl
  | succ k ih => simp only [forLoopM, ih, Option.some_bind, forLoop_succ]

theorem forLoopM_none {σ : Type} (n : Nat) (s : σ) :
    forLoopM (n + 1) (fun _ _ => (none : Option σ)) s = none := by
  simp only [forLoopM]
  cases forLoopM n (fun _ _ => (none : Option σ)) s <;> rfl

/-- With a nonzero norm, `normalize` divides column `col` of both matrices by it. -/
theorem normalize_of_ne (sqrt : K → K) (u b : Buf K) (n col : Nat)
    (h : sqrt (colDot u n col col) ≠ 0) :
    normalize sqrt u b n col = some
      (forLoop n (fun i w =>
        setEntry w n i col (getEntry w n i col / sqrt (colDot u n col col))) u,
       forLoop n (fun i w =>
        setEntry w n i col (getEntry w n i col / sqrt (colDot u n col col))) b) := by
  unfold normalize
  simp only [dotProductInMatrix_eq_colDot, fdiv, h, if_false, Option.some_bind]
  rw [forLoopM_some n (fun i (s : Buf K × Buf K) =>
    (setEntry s.1 n i col (getEntry s.1 n i col / sqrt (colDot u n col col)),
     setEntry s.2 n i col (getEntry s.2 n i col / sqrt (colDot u n col col)))) (u, b)]
  exact congrArg some (forLoop_prod n
    (fun i w => setEntry w n i col (getEntry w n i col / sqrt (colDot u n col col)))
    (fun i w => setEntry w n i col (getEntry w n i col / sqrt (colDot u n col col))) u b)

/-- With a zero norm, the first division of `normalize` is a division by zero. -/
theorem normalize_of_eq_zero (sqrt : K → K) (u b : Buf K) (n col : Nat) (hn : 0 < n)
    (h : sqrt (colDot u n col col) = 0) :
    normalize sqrt u b n col = none := by
  unfold normalize
  simp only [dotProductInMatrix_eq_colDot, fdiv, h, if_true, Option.none_bind]
  obtain ⟨k, rfl⟩ : ∃ k, n = k + 1 := ⟨n - 1, by omega⟩
  exact forLoopM_none k (u, b)

theorem generateZeroVector_apply (n r : Nat) : (generateZeroVector n : Buf K) r = 0 := by
  unfold generateZeroVector
  induction n with
  | zero => rfl
  | succ k ih =>
    rw [forLoop_succ, Function.update_apply, ih]
    simp

theorem updateSubtractVector_apply (s u : Buf K) (n : Nat) (dp : K) (c r : Nat) :
    updateSubtractVector s u n dp c r
      = if r < n then s r + dp * getEntry u n r c else s r := by
  unfold updateSubtractVector
  have key : ∀ k, forLoop k (fun i (v : Buf K) =>
      Function.update v i (v i + dp * getEntry u n i c)) s r
      = if r < k then s r + dp * getEntry u n r c else s r := by
    intro k
    induction k with
    | zero => simp [forLoop]
    | succ k ih =>
      rw [forLoop_succ, Function.update_apply]
      by_cases h1 : r = k
      · subst h1
        rw [if_pos rfl, ih]; simp
      · have h3 : r < k + 1 ↔ r < k := by omega
        rw [if_neg h1, ih]; simp only [h3]
  exact key n

/-- The vector the first loop of `orthogonalize` accumulates. -/
theorem subtract_apply (u x : Buf K) (n col r : Nat) (hr : r < n) :
    forLoop col (fun i (s : Buf K) =>
      updateSubtractVector s x n (dotProductInMatrix u n i col) i) (generateZeroVector n) r
      = ∑ i in Finset.range col, colDot u n i col * getEntry x n r i := by
  have key : ∀ k, forLoop k (fun i (s : Buf K) =>
      updateSubtractVector s x n (dotProductInMatrix u n i col) i) (generateZeroVector n) r
      = ∑ i in Finset.range k, colDot u n i col * getEntry x n r i := by
    intro k
    induction k with
    | zero => simp [forLoop, generateZeroVector_apply]
    | succ k ih =>
      rw [forLoop_succ, updateSubtractVector_apply, if_pos hr, ih, Finset.sum_range_succ,
        dotProductInMatrix_eq_colDot]
  exact key col

/-- The two matrices after the subtraction loop of `orthogonalize`. -/
theorem subtractLoop_get (x s : Buf K) {n col : Nat} (hcol : col < n) {r c : Nat} (hc : c < n) :
    getEntry (forLoop n (fun i w => setEntry w n i col (getEntry w n i col - s i)) x) n r c
      = if c = col ∧ r < n then getEntry x n r c - s r else getEntry x n r c :=
  colLoop_get (fun i v => v - s i) x hcol n r c hc

/-- The two matrices after the division loop of `normalize`. -/
theorem divideLoop_get (x : Buf K) (size : K) {n col : Nat} (hcol : col < n) {r c : Nat}
    (hc : c < n) :
    getEntry (forLoop n (fun i w => setEntry w n i col (getEntry w n i col / size)) x) n r c
      = if c = col ∧ r < n then getEntry x n r c / size else getEntry x n r c :=
  colLoop_get (fun _ v => v / size) x hcol n r c hc

/-- The state `orthogonalize` hands to `normalize`: the accumulation loop and the
subtraction loop, each run on the two matrices independently. -/
theorem orthogonalize_eq (sqrt : K → K) (u b : Buf K) (n col : Nat) :
    orthogonalize sqrt u b n col =
      normalize sqrt
        (forLoop n (fun i w => setEntry w n i col (getEntry w n i col -
          forLoop col (fun i (s : Buf K) =>
            updateSubtractVector s u n (dotProductInMatrix u n i col) i)
            (generateZeroVector n) i)) u)
        (forLoop n (fun i w => setEntry w n i col (getEntry w n i col -
          forLoop col (fun i (s : Buf K) =>
            updateSubtractVector s b n (dotProductInMatrix u n i col) i)
            (generateZeroVector n) i)) b) n col := by
  unfold orthogonalize
  simp only
  rw [forLoop_prod col
    (fun i (s : Buf K) => updateSubtractVector s u n (dotProductInMatrix u n i col) i)
    (fun i (s : Buf K) => updateSubtractVector s b n (dotProductInMatrix u n i col) i)]
  simp only
  rw [forLoop_prod n
    (fun i w => setEntry w n i col (getEntry w n i col -
      forLoop col (fun i (s : Buf K) =>
        updateSubtractVector s u n (dotProductInMatrix u n i col) i) (generateZeroVector n) i))
    (fun i w => setEntry w n i col (getEntry w n i col -
      forLoop col (fun i (s : Buf K) =>
        updateSubtractVector s b n (dotProductInMatrix u n i col) i) (generateZeroVector n) i))]

end Orthogonalize

section OrthogonalizeSpec
variable {K : Type} [LinearOrderedField K]

/-- The matrix `x` (either `u` or `b`) after the subtraction loop of `orthogonalize`. -/
theorem projected_get (u x : Buf K) {n col : Nat} (hcol : col < n) {r c : Nat}
    (hr : r < n) (hc : c < n) :
    getEntry (forLoop n (fun i w => setEntry w n i col (getEntry w n i col -
        forLoop col (fun i (s : Buf K) =>
          updateSubtractVector s x n (dotProductInMatrix u n i col) i)
          (generateZeroVector n) i)) x) n r c
      = if c = col then projCol u x n col r else getEntry x n r c := by
  rw [subtractLoop_get x _ hcol hc]
  by_cases h : c = col
  · subst h
    rw [if_pos ⟨rfl, hr⟩, if_pos rfl, subtract_apply u x n c r hr]
    rfl
  · rw [if_neg (fun h' => h h'.1), if_neg h]

/-- The squared norm `normalize` computes inside `orthogonalize`. -/
theorem projected_colDot (u : Buf K) {n col : Nat} (hcol : col < n) :
    colDot (forLoop n (fun i w => setEntry w n i col (getEntry w n i col -
        forLoop col (fun i (s : Buf K) =>
          updateSubtractVector s u n (dotProductInMatrix u n i col) i)
          (generateZeroVector n) i)) u) n col col
      = ∑ r in Finset.range n, projCol u u n col r * projCol u u n col r := by
  unfold colDot
  refine Finset.sum_congr rfl (fun r hr => ?_)
  rw [projected_get u u hcol (Finset.mem_range.mp hr) hcol, if_pos rfl]

/-- One pass with a zero norm divides by zero. -/
theorem orthogonalize_none (sqrt : K → K) (u b : Buf K) {n col : Nat} (hcol : col < n)
    (h : projNorm sqrt u n col = 0) :
    orthogonalize sqrt u b n col = none := by
  rw [orthogonalize_eq]
  apply normalize_of_eq_zero _ _ _ _ _ (by omega)
  rw [projected_colDot u hcol]
  exact h

/-- One pass with a nonzero norm: column `col` of `u` and of `b` is replaced by the
projected column divided by the norm, every other cell of the two matrices is kept. -/
theorem orthogonalize_some (sqrt : K → K) (u b : Buf K) {n col : Nat} (hcol : col < n)
    (h : projNorm sqrt u n col ≠ 0) :
    ∃ u' b', orthogonalize sqrt u b n col = some (u', b') ∧
      (∀ r c, r < n → c < n → getEntry u' n r c =
        if c = col then projCol u u n col r / projNorm sqrt u n col else getEntry u n r c) ∧
      (∀ r c, r < n → c < n → getEntry b' n r c =
        if c = col then projCol u b n col r / projNorm sqrt u n col else getEntry b n r c) := by
  rw [orthogonalize_eq]
  have hsize : sqrt (colDot (forLoop n (fun i w => setEntry w n i col (getEntry w n i col -
        forLoop col (fun i (s : Buf K) =>
          updateSubtractVector s u n (dotProductInMatrix u n i col) i)
          (generateZeroVector n) i)) u) n col col) = projNorm sqrt u n col := by
    rw [projected_colDot u hcol]; rfl
  rw [normalize_of_ne _ _ _ _ _ (by rw [hsize]; exact h), hsize]
  refine ⟨_, _, rfl, ?_, ?_⟩
  · intro r c hr hc
    rw [divideLoop_get _ _ hcol hc, projected_get u u hcol hr hc]
    by_cases hcc : c = col
    · rw [if_pos ⟨hcc, hr⟩, if_pos hcc, if_pos hcc]
    · rw [if_neg (fun h' => hcc h'.1), if_neg hcc, if_neg hcc]
  · intro r c hr hc
    rw [divideLoop_get _ _ hcol hc, projected_get u b hcol hr hc]
    by_cases hcc : c = col
    · rw [if_pos ⟨hcc, hr⟩, if_pos hcc, if_pos hcc]
    · rw [if_neg (fun h' => hcc h'.1), if_neg hcc, if_neg hcc]

end OrthogonalizeSpec

section GramSchmidt
variable {K : Type} [LinearOrderedField K]

theorem colDot_comm (m : Buf K) (n i j : Nat) : colDot m n i j = colDot m n j i :=
  dot_comm m n i j

/-- The projected column of `u` is `a` applied to the projected column of `b`. -/
theorem projCol_prod (a u b : Buf K) {n col r : Nat} (hcol : col < n) (hr : r < n)
    (hprod : ∀ r c, r < n → c < n →
      getEntry u n r c = ∑ j in Finset.range n, getEntry a n r j * getEntry b n j c) :
    projCol u u n col r = ∑ j in Finset.range n, getEntry a n r j * projCol u b n col j := by
  unfold projCol
  simp only [mul_sub, Finset.sum_sub_distrib]
  rw [hprod r col hr hcol]
  congr 1
  have h1 : ∀ i ∈ Finset.range col, colDot u n i col * getEntry u n r i
      = ∑ j in Finset.range n, getEntry a n r j * (colDot u n i col * getEntry b n j i) := by
    intro i hi
    rw [hprod r i hr (lt_trans (Finset.mem_range.mp hi) hcol), Finset.mul_sum]
    refine Finset.sum_congr rfl (fun j _ => ?_)
    ring
  rw [Finset.sum_congr rfl h1, Finset.sum_comm]
  refine Finset.sum_congr rfl (fun j _ => ?_)
  rw [Finset.mul_sum]

/-- Below the diagonal the projected column of an upper triangular `b` is zero, and on
the diagonal it is the diagonal entry. -/
theorem projCol_upper (u b : Buf K) {n col r : Nat} (hcol : col < n) (hr : r < n)
    (hcr : col ≤ r)
    (hupper : ∀ r c, r < n → c < n → c < r → getEntry b n r c = 0) :
    projCol u b n col r = if r = col then getEntry b n col col else 0 := by
  unfold projCol
  have h0 : ∑ i in Finset.range col, colDot u n i col * getEntry b n r i = 0 := by
    refine Finset.sum_eq_zero (fun i hi => ?_)
    have hi' := Finset.mem_range.mp hi
    rw [hupper r i hr (by omega) (by omega), mul_zero]
  rw [h0, sub_zero]
  by_cases h : r = col
  · subst h; simp
  · rw [if_neg h, hupper r col hr hcol (by omega)]

/-- The projected column is orthogonal to every earlier column. -/
theorem projCol_ortho (u : Buf K) {n col i : Nat} (hi : i < col)
    (hortho : OrthoCols u n col) :
    ∑ r in Finset.range n, getEntry u n r i * projCol u u n col r = 0 := by
  unfold projCol
  simp only [mul_sub, Finset.sum_sub_distrib, Finset.mul_sum]
  rw [Finset.sum_comm]
  have h1 : ∀ j ∈ Finset.range col,
      ∑ r in Finset.range n, getEntry u n r i * (colDot u n j col * getEntry u n r j)
        = colDot u n j col * (if i = j then 1 else 0) := by
    intro j hj
    rw [← hortho i j hi (Finset.mem_range.mp hj)]
    unfold colDot
    rw [Finset.mul_sum]
    refine Finset.sum_congr rfl (fun r _ => ?_)
    ring
  rw [Finset.sum_congr rfl h1]
  simp only [mul_ite, mul_one, mul_zero]
  rw [Finset.sum_ite_eq (Finset.range col) i, if_pos (Finset.mem_range.mpr hi)]
  unfold colDot
  ring

/-- A matrix with nonzero determinant maps no nonzero vector to zero. -/
theorem vec_zero_of_prod_zero (a : Buf K) (n : Nat) (hdet : (toMatrix a n).det ≠ 0)
    (v : Nat → K)
    (h : ∀ r, r < n → ∑ j in Finset.range n, getEntry a n r j * v j = 0) :
    ∀ j, j < n → v j = 0 := by
  have hmv : (toMatrix a n).mulVec (fun j : Fin n => v j) = 0 := by
    funext r
    have := h r r.isLt
    rw [Finset.sum_range] at this
    simpa [Matrix.mulVec, Matrix.dotProduct, toMatrix] using this
  have hz := Matrix.eq_zero_of_mulVec_eq_zero hdet hmv
  intro j hj
  exact congrFun hz ⟨j, hj⟩

end GramSchmidt

section GramSchmidtStep
variable {K : Type} [LinearOrderedField K]

/-- For an invertible `a`, the projected column is not the zero vector: its squared
norm is positive. -/
theorem projNorm_sq_pos (a u b : Buf K) {n col k : Nat} (hdet : (toMatrix a n).det ≠ 0)
    (hcol : col < n) (inv : GsInv a u b n k) :
    0 < ∑ r in Finset.range n, projCol u u n col r * projCol u u n col r := by
  have hnn : ∀ r ∈ Finset.range n, 0 ≤ projCol u u n col r * projCol u u n col r :=
    fun r _ => mul_self_nonneg _
  rcases (Finset.sum_nonneg hnn).lt_or_eq with h | h
  · exact h
  · exfalso
    have hz := (Finset.sum_eq_zero_iff_of_nonneg hnn).mp h.symm
    have hv := vec_zero_of_prod_zero a n hdet (fun j => projCol u b n col j) (fun r hr => by
      rw [← projCol_prod a u b hcol hr inv.prod]
      exact mul_self_eq_zero.mp (hz r (Finset.mem_range.mpr hr)))
    have h1 := hv col hcol
    simp only at h1
    rw [projCol_upper u b hcol hcol (Nat.le_refl _) inv.upper, if_pos rfl] at h1
    exact absurd h1 (ne_of_gt (inv.diag col hcol))

theorem GsInv.mono {a u b : Buf K} {n k k' : Nat} (inv : GsInv a u b n k) (h : k' ≤ k) :
    GsInv a u b n k' :=
  ⟨inv.prod, inv.upper, inv.diag,
    fun i j hi hj => inv.ortho i j (lt_of_lt_of_le hi h) (lt_of_lt_of_le hj h)⟩

/-- One pass of `orthogonalize` on column `col`, when the earlier columns are
orthonormal: it divides by a positive norm and re-establishes the invariant with column
`col` included. -/
theorem gs_step (sqrt : K → K) (hs : ∀ x : K, 0 < x → 0 < sqrt x ∧ sqrt x * sqrt x = x)
    (a u b : Buf K) {n col : Nat} (hdet : (toMatrix a n).det ≠ 0) (hcol : col < n)
    (inv : GsInv a u b n col) :
    ∃ u' b', orthogonalize sqrt u b n col = some (u', b') ∧ GsInv a u' b' n (col + 1) := by
  have hpos := projNorm_sq_pos a u b hdet hcol inv
  obtain ⟨hsz, hsq⟩ := hs _ hpos
  have hsz' : 0 < projNorm sqrt u n col := hsz
  have hsq' : projNorm sqrt u n col * projNorm sqrt u n col
      = ∑ r in Finset.range n, projCol u u n col r * projCol u u n col r := hsq
  obtain ⟨u', b', he, hu, hb⟩ := orthogonalize_some sqrt u b hcol (ne_of_gt hsz')
  refine ⟨u', b', he, ?_, ?_, ?_, ?_⟩
  · -- u' = a × b'
    intro r c hr hc
    rw [hu r c hr hc]
    by_cases hcc : c = col
    · rw [if_pos hcc, projCol_prod a u b hcol hr inv.prod, Finset.sum_div]
      refine Finset.sum_congr rfl (fun j hj => ?_)
      rw [hb j c (Finset.mem_range.mp hj) hc, if_pos hcc, mul_div_assoc]
    · rw [if_neg hcc, inv.prod r c hr hc]
      refine Finset.sum_congr rfl (fun j hj => ?_)
      rw [hb j c (Finset.mem_range.mp hj) hc, if_neg hcc]
  · -- b' is upper triangular
    intro r c hr hc hcr
    rw [hb r c hr hc]
    by_cases hcc : c = col
    · subst hcc
      rw [if_pos rfl, projCol_upper u b hcol hr (le_of_lt hcr) inv.upper,
        if_neg (by omega), zero_div]
    · rw [if_neg hcc, inv.upper r c hr hc hcr]
  · -- the diagonal of b' is positive
    intro c hc
    rw [hb c c hc hc]
    by_cases hcc : c = col
    · subst hcc
      rw [if_pos rfl, projCol_upper u b hcol hcol (Nat.le_refl _) inv.upper, if_pos rfl]
      exact div_pos (inv.diag c hc) hsz'
    · rw [if_neg hcc]; exact inv.diag c hc
  · -- the first col + 1 columns of u' are orthonormal
    have hcross : ∀ i, i < col → colDot u' n i col = 0 := by
      intro i hi
      unfold colDot
      have : ∀ r ∈ Finset.range n, getEntry u' n r i * getEntry u' n r col
          = getEntry u n r i * projCol u u n col r / projNorm sqrt u n col := by
        intro r hr
        have hr' := Finset.mem_range.mp hr
        rw [hu r i hr' (by omega), hu r col hr' hcol, if_neg (by omega), if_pos rfl,
          mul_div_assoc]
      rw [Finset.sum_congr rfl this, ← Finset.sum_div, projCol_ortho u hi inv.ortho, zero_div]
    have hself : colDot u' n col col = 1 := by
      unfold colDot
      have : ∀ r ∈ Finset.range n, getEntry u' n r col * getEntry u' n r col
          = projCol u u n col r * projCol u u n col r
            / (projNorm sqrt u n col * projNorm sqrt u n col) := by
        intro r hr
        rw [hu r col (Finset.mem_range.mp hr) hcol, if_pos rfl, div_mul_div_comm]
      rw [Finset.sum_congr rfl this, ← Finset.sum_div, hsq']
      exact div_self (ne_of_gt hpos)
    have hold : ∀ i j, i < col → j < col → colDot u' n i j = colDot u n i j := by
      intro i j hi hj
      unfold colDot
      refine Finset.sum_congr rfl (fun r hr => ?_)
      have hr' := Finset.mem_range.mp hr
      rw [hu r i hr' (by omega), hu r j hr' (by omega), if_neg (by omega), if_neg (by omega)]
    intro i j hi hj
    rcases Nat.lt_succ_iff_lt_or_eq.mp hi with hi' | hi'
    · rcases Nat.lt_succ_iff_lt_or_eq.mp hj with hj' | hj'
      · rw [hold i j hi' hj']; exact inv.ortho i j hi' hj'
      · subst hj'; rw [hcross i hi', if_neg (by omega)]
    · rcases Nat.lt_succ_iff_lt_or_eq.mp hj with hj' | hj'
      · subst hi'; rw [colDot_comm, hcross j hj', if_neg (by omega)]
      · subst hi'; subst hj'; rw [hself, if_pos rfl]

end GramSchmidtStep

section Engine
variable {K : Type} [LinearOrderedField K]

/-- The state before the column loop satisfies the invariant. -/
theorem gs_init (a u b : Buf K) (n : Nat) :
    GsInv a (copy_into a u n) (assignIdentityMatrix b n) n 0 := by
  refine ⟨?_, ?_, ?_, ?_⟩
  · intro r c hr hc
    rw [getEntry_copy_into _ _ hr hc]
    have : ∀ j ∈ Finset.range n,
        getEntry a n r j * getEntry (assignIdentityMatrix b n) n j c
          = if j = c then getEntry a n r j else 0 := by
      intro j hj
      rw [getEntry_assignIdentityMatrix _ (Finset.mem_range.mp hj) hc]
      split <;> simp
    rw [Finset.sum_congr rfl this, Finset.sum_ite_eq' (Finset.range n) c,
      if_pos (Finset.mem_range.mpr hc)]
  · intro r c hr hc hcr
    rw [getEntry_assignIdentityMatrix _ hr hc, if_neg (by omega)]
  · intro c hc
    rw [getEntry_assignIdentityMatrix _ hc hc, if_pos rfl]
    exact one_pos
  · intro i j hi _
    exact absurd hi (Nat.not_lt_zero _)

/-- The column loop of `inv_double_gs` never divides by zero on an invertible matrix and
keeps the invariant. -/
theorem gs_loop (sqrt : K → K) (hs : ∀ x : K, 0 < x → 0 < sqrt x ∧ sqrt x * sqrt x = x)
    (a u b : Buf K) {n : Nat} (hdet : (toMatrix a n).det ≠ 0) (inv : GsInv a u b n 0)
    (k : Nat) (hk : k ≤ n) :
    ∃ u' b', forLoopM k (fun i (s : Buf K × Buf K) =>
        (orthogonalize sqrt s.1 s.2 n i).bind fun s =>
        orthogonalize sqrt s.1 s.2 n i) (u, b) = some (u', b') ∧ GsInv a u' b' n k := by
  induction k with
  | zero => exact ⟨u, b, rfl, inv⟩
  | succ k ih =>
    obtain ⟨u1, b1, h1, inv1⟩ := ih (by omega)
    obtain ⟨u2, b2, h2, inv2⟩ := gs_step sqrt hs a u1 b1 hdet (by omega : k < n) inv1
    obtain ⟨u3, b3, h3, inv3⟩ := gs_step sqrt hs a u2 b2 hdet (by omega : k < n)
      (inv2.mono (Nat.le_succ k))
    refine ⟨u3, b3, ?_, inv3⟩
    simp only [forLoopM, h1, Option.some_bind, h2, h3]

/-- When the columns of a square matrix are orthonormal, so are its rows. -/
theorem rows_ortho_of_cols_ortho (u : Buf K) (n : Nat) (h : OrthoCols u n n) :
    ∀ r c, r < n → c < n →
      ∑ k in Finset.range n, getEntry u n r k * getEntry u n c k = if r = c then 1 else 0 := by
  have h1 : (toMatrix u n).transpose * toMatrix u n = 1 := by
    ext i j
    have := h i j i.isLt j.isLt
    unfold colDot at this
    rw [Finset.sum_range] at this
    simp only [Matrix.mul_apply, Matrix.transpose_apply, toMatrix, Matrix.of_apply,
      Matrix.one_apply, Fin.ext_iff]
    exact this
  have h2 : toMatrix u n * (toMatrix u n).transpose = 1 := (Matrix.mul_eq_one_comm).mp h1
  intro r c hr hc
  have := congrFun (congrFun h2 ⟨r, hr⟩) ⟨c, hc⟩
  simp only [Matrix.mul_apply, Matrix.transpose_apply, toMatrix, Matrix.of_apply,
    Matrix.one_apply, Fin.ext_iff] at this
  rw [Finset.sum_range]
  exact this

/-- The whole engine on an invertible matrix: the loop ends in a state `(u', b')` that
satisfies the invariant for all `n` columns, and the returned transform matrix is
`b' × u'ᵗ`. -/
theorem inv_double_gs_run (sqrt : K → K)
    (hs : ∀ x : K, 0 < x → 0 < sqrt x ∧ sqrt x * sqrt x = x)
    (a u b : Buf K) (n : Nat) (hdet : (toMatrix a n).det ≠ 0) :
    ∃ u' b' bf, inv_double_gs sqrt a n u b = some (u', bf) ∧ GsInv a u' b' n n ∧
      ∀ i j, i < n → j < n →
        getEntry bf n i j = ∑ k in Finset.range n, getEntry b' n i k * getEntry u' n j k := by
  obtain ⟨u', b', hl, inv⟩ := gs_loop sqrt hs a _ _ hdet (gs_init a u b n) n (Nat.le_refl n)
  refine ⟨u', b', (matrixMultiply b' (transposeMatrix u' n).1 n).1, ?_, inv, ?_⟩
  · unfold inv_double_gs
    simp only [hl, Option.some_bind]
  · intro i j hi hj
    rw [getEntry_matrixMultiply _ _ hi hj]
    refine Finset.sum_congr rfl (fun k hk => ?_)
    rw [getEntry_transposeMatrix _ (Finset.mem_range.mp hk) hj]

/-- On an invertible matrix the engine returns `u` with orthonormal columns and `b`
with `a × b` the identity. -/
theorem inv_double_gs_correct (sqrt : K → K)
    (hs : ∀ x : K, 0 < x → 0 < sqrt x ∧ sqrt x * sqrt x = x)
    (a u b : Buf K) (n : Nat) (hdet : (toMatrix a n).det ≠ 0) :
    ∃ u' bf, inv_double_gs sqrt a n u b = some (u', bf) ∧ OrthoCols u' n n ∧
      ∀ r c, r < n → c < n →
        ∑ j in Finset.range n, getEntry a n r j * getEntry bf n j c = if r = c then 1 else 0 := by
  obtain ⟨u', b', bf, he, inv, hbf⟩ := inv_double_gs_run sqrt hs a u b n hdet
  refine ⟨u', bf, he, inv.ortho, ?_⟩
  intro r c hr hc
  rw [← rows_ortho_of_cols_ortho u' n inv.ortho r c hr hc]
  have h1 : ∀ j ∈ Finset.range n, getEntry a n r j * getEntry bf n j c
      = ∑ k in Finset.range n, getEntry a n r j * getEntry b' n j k * getEntry u' n c k := by
    intro j hj
    rw [hbf j c (Finset.mem_range.mp hj) hc, Finset.mul_sum]
    refine Finset.sum_congr rfl (fun k _ => ?_)
    ring
  rw [Finset.sum_congr rfl h1, Finset.sum_comm]
  refine Finset.sum_congr rfl (fun k hk => ?_)
  rw [inv.prod r k hr (Finset.mem_range.mp hk), Finset.sum_mul]

theorem real_sqrt_spec (x : ℝ) (hx : 0 < x) :
    0 < Real.sqrt x ∧ Real.sqrt x * Real.sqrt x = x :=
  ⟨Real.sqrt_pos.mpr hx, Real.mul_self_sqrt (le_of_lt hx)⟩

end Engine

section Diagonal
variable {K : Type} [LinearOrderedField K]

theorem colDot_diag (u : Buf K) {n i j : Nat} (x : Nat → K) (hu : IsDiag u n x)
    (hi : i < n) (hj : j < n) :
    colDot u n i j = if i = j then x i * x i else 0 := by
  unfold colDot
  have : ∀ r ∈ Finset.range n, getEntry u n r i * getEntry u n r j
      = if r = i then (if i = j then x i * x i else 0) else 0 := by
    intro r hr
    rw [hu r i (Finset.mem_range.mp hr) hi, hu r j (Finset.mem_range.mp hr) hj]
    by_cases h1 : r = i
    · subst h1
      by_cases h2 : r = j
      · subst h2; simp
      · simp [h2]
    · simp [h1]
  rw [Finset.sum_congr rfl this, Finset.sum_ite_eq' (Finset.range n) i,
    if_pos (Finset.mem_range.mpr hi)]

theorem projCol_diag (u z : Buf K) {n col r : Nat} (x w : Nat → K) (hu : IsDiag u n x)
    (hz : IsDiag z n w) (hcol : col < n) (hr : r < n) :
    projCol u z n col r = if r = col then w r else 0 := by
  unfold projCol
  have h0 : ∑ i in Finset.range col, colDot u n i col * getEntry z n r i = 0 := by
    refine Finset.sum_eq_zero (fun i hi => ?_)
    have hi' := Finset.mem_range.mp hi
    rw [colDot_diag u x hu (by omega) hcol, if_neg (by omega), zero_mul]
  rw [h0, sub_zero, hz r col hr hcol]

/-- One pass on column `col` of diagonal matrices `u = diag x`, `b = diag y`: the entry
of `u` becomes 1, the entry of `b` is divided by `x col`. -/
theorem orthogonalize_diag (sqrt : K → K) (hsq : ∀ t : K, 0 < t → sqrt (t * t) = t)
    (u b : Buf K) {n col : Nat} (x y : Nat → K) (hu : IsDiag u n x) (hb : IsDiag b n y)
    (hcol : col < n) (hx : 0 < x col) :
    ∃ u' b', orthogonalize sqrt u b n col = some (u', b') ∧
      IsDiag u' n (Function.update x col 1) ∧
      IsDiag b' n (Function.update y col (y col / x col)) := by
  have hnorm : projNorm sqrt u n col = x col := by
    unfold projNorm
    have : ∀ r ∈ Finset.range n, projCol u u n col r * projCol u u n col r
        = if r = col then x col * x col else 0 := by
      intro r hr
      rw [projCol_diag u u x x hu hu hcol (Finset.mem_range.mp hr)]
      by_cases h : r = col
      · subst h; simp
      · simp [h]
    rw [Finset.sum_congr rfl this, Finset.sum_ite_eq' (Finset.range n) col,
      if_pos (Finset.mem_range.mpr hcol), hsq _ hx]
  obtain ⟨u', b', he, hu', hb'⟩ := orthogonalize_some sqrt u b hcol
    (by rw [hnorm]; exact ne_of_gt hx)
  refine ⟨u', b', he, ?_, ?_⟩
  · intro r c hr hc
    rw [hu' r c hr hc, hnorm, projCol_diag u u x x hu hu hcol hr]
    by_cases hcc : c = col
    · subst hcc
      by_cases hrc : r = c
      · subst hrc; simp [div_self (ne_of_gt hx)]
      · simp [hrc]
    · rw [if_neg hcc, hu r c hr hc]
      by_cases hrc : r = c
      · subst hrc; simp [Function.update_apply, hcc]
      · simp [hrc]
  · intro r c hr hc
    rw [hb' r c hr hc, hnorm, projCol_diag u b x y hu hb hcol hr]
    by_cases hcc : c = col
    · subst hcc
      by_cases hrc : r = c
      · subst hrc; simp
      · simp [hrc]
    · rw [if_neg hcc, hb r c hr hc]
      by_cases hrc : r = c
      · subst hrc; simp [Function.update_apply, hcc]
      · simp [hrc]

/-- The column loop on `a = diag d` with a positive diagonal: after `k` columns, the
first `k` diagonal entries of `u` are 1 and those of `b` are `1 / d`. -/
theorem diag_loop (sqrt : K → K) (hsq : ∀ t : K, 0 < t → sqrt (t * t) = t)
    (u b : Buf K) {n : Nat} (d : Nat → K) (hd : ∀ c, c < n → 0 < d c)
    (hu : IsDiag u n d) (hb : IsDiag b n (fun _ => 1)) (k : Nat) (hk : k ≤ n) :
    ∃ u' b', forLoopM k (fun i (s : Buf K × Buf K) =>
        (orthogonalize sqrt s.1 s.2 n i).bind fun s =>
        orthogonalize sqrt s.1 s.2 n i) (u, b) = some (u', b') ∧
      IsDiag u' n (fun c => if c < k then 1 else d c) ∧
      IsDiag b' n (fun c => if c < k then 1 / d c else 1) := by
  induction k with
  | zero => exact ⟨u, b, rfl, by simpa using hu, by simpa using hb⟩
  | succ k ih =>
    obtain ⟨u1, b1, h1, hu1, hb1⟩ := ih (by omega)
    have hkn : k < n := by omega
    obtain ⟨u2, b2, h2, hu2, hb2⟩ := orthogonalize_diag sqrt hsq u1 b1 _ _ hu1 hb1 hkn
      (by simp only [lt_irrefl, if_false]; exact hd k hkn)
    obtain ⟨u3, b3, h3, hu3, hb3⟩ := orthogonalize_diag sqrt hsq u2 b2 _ _ hu2 hb2 hkn
      (by simp)
    refine ⟨u3, b3, ?_, ?_, ?_⟩
    · simp only [forLoopM, h1, Option.some_bind, h2, h3]
    · intro r c hr hc
      rw [hu3 r c hr hc]
      by_cases hrc : r = c
      · subst hrc
        simp only [if_true, Function.update_apply]
        by_cases h : r = k
        · subst h; simp
        · have h' : r < k + 1 ↔ r < k := by omega
          simp [h, h']
      · simp [hrc]
    · intro r c hr hc
      rw [hb3 r c hr hc]
      by_cases hrc : r = c
      · subst hrc
        simp only [if_true, Function.update_apply]
        by_cases h : r = k
        · subst h; simp
        · have h' : r < k + 1 ↔ r < k := by omega
          simp [h, h']
      · simp [hrc]

/-- The engine on `a = diag d` with a positive diagonal returns `u = identity` and
`b = diag (1 / d)`. -/
theorem inv_double_gs_diag (sqrt : K → K) (hsq : ∀ t : K, 0 < t → sqrt (t * t) = t)
    (a u b : Buf K) (n : Nat) (d : Nat → K) (hd : ∀ c, c < n → 0 < d c)
    (ha : IsDiag a n d) :
    ∃ u' b', inv_double_gs sqrt a n u b = some (u', b') ∧
      IsDiag u' n (fun _ => 1) ∧ IsDiag b' n (fun c => 1 / d c) := by
  have hu0 : IsDiag (copy_into a u n) n d := fun r c hr hc => by
    rw [getEntry_copy_into _ _ hr hc]; exact ha r c hr hc
  have hb0 : IsDiag (assignIdentityMatrix b n) n (fun _ => (1 : K)) := fun r c hr hc =>
    getEntry_assignIdentityMatrix b hr hc
  obtain ⟨u', b', hl, hu', hb'⟩ := diag_loop sqrt hsq _ _ d hd hu0 hb0 n (Nat.le_refl n)
  refine ⟨u', (matrixMultiply b' (transposeMatrix u' n).1 n).1, ?_, ?_, ?_⟩
  · unfold inv_double_gs
    simp only [hl, Option.some_bind]
  · intro r c hr hc
    rw [hu' r c hr hc]; simp [hr]
  · intro r c hr hc
    rw [getEntry_matrixMultiply _ _ hr hc]
    have : ∀ k ∈ Finset.range n,
        getEntry b' n r k * getEntry (transposeMatrix u' n).1 n k c
          = if k = r then (if r = c then 1 / d r else 0) else 0 := by
      intro k hk
      have hk' := Finset.mem_range.mp hk
      rw [getEntry_transposeMatrix _ hk' hc, hb' r k hr hk', hu' c k hc hk']
      by_cases h1 : k = r
      · subst h1
        by_cases h2 : k = c
        · subst h2; simp [hk']
        · simp [h2, Ne.symm h2]
      · simp [h1, Ne.symm h1]
    rw [Finset.sum_congr rfl this, Finset.sum_ite_eq' (Finset.range n) r,
      if_pos (Finset.mem_range.mpr hr)]

theorem real_sqrt_mul_self (t : ℝ) (ht : 0 < t) : Real.sqrt (t * t) = t :=
  Real.sqrt_mul_self (le_of_lt ht)

end Diagonal

section ZeroColumn
variable {K : Type} [LinearOrderedField K]

/-- A pass that does not divide by zero changes column `col` only. -/
theorem orthogonalize_frame (sqrt : K → K) (u b u' b' : Buf K) {n col : Nat} (hcol : col < n)
    (h : orthogonalize sqrt u b n col = some (u', b')) :
    ∀ r c, r < n → c < n → c ≠ col →
      getEntry u' n r c = getEntry u n r c ∧ getEntry b' n r c = getEntry b n r c := by
  by_cases hz : projNorm sqrt u n col = 0
  · rw [orthogonalize_none sqrt u b hcol hz] at h
    cases h
  · obtain ⟨u2, b2, he, hu2, hb2⟩ := orthogonalize_some sqrt u b hcol hz
    rw [he] at h
    injection h with h
    injection h with h1 h2
    subst h1; subst h2
    intro r c hr hc hne
    rw [hu2 r c hr hc, hb2 r c hr hc, if_neg hne, if_neg hne]
    exact ⟨rfl, rfl⟩

/-- A pass on a zero column divides by zero. -/
theorem orthogonalize_zero_col (sqrt : K → K) (hz : sqrt 0 = 0) (u b : Buf K) {n col : Nat}
    (hcol : col < n) (h0 : ∀ r, r < n → getEntry u n r col = 0) :
    orthogonalize sqrt u b n col = none := by
  apply orthogonalize_none sqrt u b hcol
  unfold projNorm
  have hp : ∀ r ∈ Finset.range n, projCol u u n col r * projCol u u n col r = 0 := by
    intro r hr
    have : projCol u u n col r = 0 := by
      unfold projCol
      rw [h0 r (Finset.mem_range.mp hr), zero_sub, neg_eq_zero]
      refine Finset.sum_eq_zero (fun i _ => ?_)
      have : colDot u n i col = 0 := by
        unfold colDot
        refine Finset.sum_eq_zero (fun r' hr' => ?_)
        rw [h0 r' (Finset.mem_range.mp hr'), mul_zero]
      rw [this, zero_mul]
    rw [this, mul_zero]
  rw [Finset.sum_eq_zero hp, hz]

theorem forLoopM_none_of_le {σ : Type} (body : Nat → σ → Option σ) (s : σ) {k k' : Nat}
    (h : forLoopM k body s = none) (hk : k ≤ k') : forLoopM k' body s = none := by
  induction k' with
  | zero =>
    have : k = 0 := by omega
    subst this; exact h
  | succ j ih =>
    rcases Nat.lt_succ_iff_lt_or_eq.mp (Nat.lt_succ_of_le hk) with h1 | h1
    · simp only [forLoopM, ih (by omega), Option.none_bind]
    · subst h1; exact h

/-- The column loop on a matrix whose column `c` is zero: the columns before `c` leave
column `c` as it is, and the pass on column `c` divides by zero. -/
theorem zero_col_loop (sqrt : K → K) (hz : sqrt 0 = 0) (u b : Buf K) {n c : Nat}
    (hc : c < n) (h0 : ∀ r, r < n → getEntry u n r c = 0) :
    forLoopM n (fun i (s : Buf K × Buf K) =>
        (orthogonalize sqrt s.1 s.2 n i).bind fun s =>
        orthogonalize sqrt s.1 s.2 n i) (u, b) = none := by
  have pre : ∀ k, k ≤ c →
      forLoopM k (fun i (s : Buf K × Buf K) =>
        (orthogonalize sqrt s.1 s.2 n i).bind fun s =>
        orthogonalize sqrt s.1 s.2 n i) (u, b) = none ∨
      ∃ u' b', forLoopM k (fun i (s : Buf K × Buf K) =>
        (orthogonalize sqrt s.1 s.2 n i).bind fun s =>
        orthogonalize sqrt s.1 s.2 n i) (u, b) = some (u', b') ∧
        ∀ r, r < n → getEntry u' n r c = 0 := by
    intro k
    induction k with
    | zero => intro _; right; exact ⟨u, b, rfl, h0⟩
    | succ k ih =>
      intro hk
      have hkn : k < n := by omega
      rcases ih (by omega) with h | ⟨u1, b1, h1, hz1⟩
      · left; simp only [forLoopM, h, Option.none_bind]
      · cases h2 : orthogonalize sqrt u1 b1 n k with
        | none => left; simp only [forLoopM, h1, Option.some_bind, h2, Option.none_bind]
        | some s2 =>
          obtain ⟨u2, b2⟩ := s2
          have f2 := orthogonalize_frame sqrt u1 b1 u2 b2 hkn h2
          cases h3 : orthogonalize sqrt u2 b2 n k with
          | none => left; simp only [forLoopM, h1, Option.some_bind, h2, h3]
          | some s3 =>
            obtain ⟨u3, b3⟩ := s3
            have f3 := orthogonalize_frame sqrt u2 b2 u3 b3 hkn h3
            right
            refine ⟨u3, b3, by simp only [forLoopM, h1, Option.some_bind, h2, h3], ?_⟩
            intro r hr
            rw [(f3 r c hr hc (by omega)).1, (f2 r c hr hc (by omega)).1]
            exact hz1 r hr
  have hstep : forLoopM (c + 1) (fun i (s : Buf K × Buf K) =>
        (orthogonalize sqrt s.1 s.2 n i).bind fun s =>
        orthogonalize sqrt s.1 s.2 n i) (u, b) = none := by
    rcases pre c (Nat.le_refl c) with h | ⟨u1, b1, h1, hz1⟩
    · simp only [forLoopM, h, Option.none_bind]
    · simp only [forLoopM, h1, Option.some_bind,
        orthogonalize_zero_col sqrt hz u1 b1 hc hz1, Option.none_bind]
  exact forLoopM_none_of_le _ _ hstep (by omega)

/-- The engine on a matrix with a zero column divides by zero. -/
theorem inv_double_gs_zero_col (sqrt : K → K) (hz : sqrt 0 = 0) (a u b : Buf K) {n c : Nat}
    (hc : c < n) (h0 : ∀ r, r < n → getEntry a n r c = 0) :
    inv_double_gs sqrt a n u b = none := by
  unfold inv_double_gs
  simp only
  rw [zero_col_loop sqrt hz _ _ hc (fun r hr => by
    rw [getEntry_copy_into _ _ hr hc]; exact h0 r hr)]
  rfl

end ZeroColumn

section Claims
variable {K : Type} [LinearOrderedField K]

/-- Two buffers whose matrix entries agree pass `checkEqualMatrix` at every `ε ≥ 0`. -/
theorem checkEqualMatrix_of_entries (m1 m2 : Buf K) (n : Nat) (ε : K) (hε : 0 ≤ ε)
    (h : ∀ i j, i < n → j < n → getEntry m1 n i j = getEntry m2 n i j) :
    checkEqualMatrix m1 m2 n ε = 1 := by
  rw [checkEqualMatrix_eq_one_iff]
  intro k hk
  obtain ⟨i, j, hi, hj, rfl⟩ := flat_split hk
  have := h i j hi hj
  unfold getEntry at this
  rw [this, sub_self, abs_zero]
  exact hε

/-- A matrix with orthonormal columns passes `checkOrthogonal` at every `ε ≥ 0`. -/
theorem checkOrthogonal_of_ortho (m : Buf K) (n : Nat) (ε : K) (hε : 0 ≤ ε)
    (h : OrthoCols m n n) : checkOrthogonal m n ε = 1 := by
  rw [checkOrthogonal_eq_one_iff]
  intro i hi
  refine ⟨?_, ?_⟩
  · rw [dotProductInMatrix_eq_colDot, h i i hi hi, if_pos rfl]
    constructor <;> linarith
  · intro j hj
    rw [dotProductInMatrix_eq_colDot, h i j hi (by omega), if_neg (by omega)]
    constructor <;> linarith

theorem toMatrix_diag22_det : (toMatrix (diag22 : Buf ℝ) 2).det ≠ 0 := by
  rw [Matrix.det_fin_two]
  simp [toMatrix, getEntry, diag22]

/-- C1: for every n > 0 and every invertible real n×n matrix `a`, in exact real
arithmetic, `inv_double_gs` completes without dividing by zero and the matrix `b` it
produces satisfies `a × b = identity`; so `matrixMultiply(a, b)` followed by
`checkEqualMatrix(identity, a·b, n, ε)` returns 1 for every `ε ≥ 0`. -/
theorem inv_double_gs_inverse (n : Nat) (_ : 0 < n) (a u b : Buf ℝ)
    (hdet : (toMatrix a n).det ≠ 0) :
    ∃ u' b', inv_double_gs Real.sqrt a n u b = some (u', b') ∧
      toMatrix a n * toMatrix b' n = 1 ∧
      ∀ (ε : ℝ) (checkIdentity : Buf ℝ), 0 ≤ ε →
        checkEqualMatrix (assignIdentityMatrix checkIdentity n)
          (matrixMultiply a b' n).1 n ε = 1 := by
  obtain ⟨u', b', he, _, hinv⟩ := inv_double_gs_correct Real.sqrt real_sqrt_spec a u b n hdet
  refine ⟨u', b', he, ?_, ?_⟩
  · ext i j
    have := hinv i j i.isLt j.isLt
    rw [Finset.sum_range] at this
    simp only [Matrix.mul_apply, toMatrix, Matrix.of_apply, Matrix.one_apply, Fin.ext_iff]
    exact this
  · intro ε c hε
    apply checkEqualMatrix_of_entries _ _ _ _ hε
    intro i j hi hj
    rw [getEntry_assignIdentityMatrix _ hi hj, getEntry_matrixMultiply _ _ hi hj,
      hinv i j hi hj]

theorem inv_double_gs_inverse_witness :
    (0 < 2 ∧ (toMatrix (diag22 : Buf ℝ) 2).det ≠ 0) ∧
    ∃ u' b', inv_double_gs Real.sqrt (diag22 : Buf ℝ) 2 malloc malloc = some (u', b') ∧
      toMatrix (diag22 : Buf ℝ) 2 * toMatrix b' 2 = 1 ∧
      ∀ (ε : ℝ) (checkIdentity : Buf ℝ), 0 ≤ ε →
        checkEqualMatrix (assignIdentityMatrix checkIdentity 2)
          (matrixMultiply diag22 b' 2).1 2 ε = 1 :=
  ⟨⟨by decide, toMatrix_diag22_det⟩,
    inv_double_gs_inverse 2 (by decide) diag22 malloc malloc toMatrix_diag22_det⟩

/-- C2: for every n > 0 and every invertible real n×n matrix `a`, in exact real
arithmetic, the matrix `u` produced by `inv_double_gs` has pairwise orthonormal columns
(dot product 1 with itself, 0 with every other column), so `checkOrthogonal(u, n, ε)`
returns 1 for every `ε ≥ 0`. -/
theorem inv_double_gs_orthonormal (n : Nat) (_ : 0 < n) (a u b : Buf ℝ)
    (hdet : (toMatrix a n).det ≠ 0) :
    ∃ u' b', inv_double_gs Real.sqrt a n u b = some (u', b') ∧
      (∀ i j, i < n → j < n →
        ∑ r in Finset.range n, getEntry u' n r i * getEntry u' n r j
          = if i = j then 1 else 0) ∧
      ∀ ε : ℝ, 0 ≤ ε → checkOrthogonal u' n ε = 1 := by
  obtain ⟨u', b', he, hortho, _⟩ :=
    inv_double_gs_correct Real.sqrt real_sqrt_spec a u b n hdet
  exact ⟨u', b', he, hortho, fun ε hε => checkOrthogonal_of_ortho u' n ε hε hortho⟩

theorem inv_double_gs_orthonormal_witness :
    (0 < 2 ∧ (toMatrix (diag22 : Buf ℝ) 2).det ≠ 0) ∧
    ∃ u' b', inv_double_gs Real.sqrt (diag22 : Buf ℝ) 2 malloc malloc = some (u', b') ∧
      (∀ i j, i < 2 → j < 2 →
        ∑ r in Finset.range 2, getEntry u' 2 r i * getEntry u' 2 r j
          = if i = j then 1 else 0) ∧
      ∀ ε : ℝ, 0 ≤ ε → checkOrthogonal u' 2 ε = 1 :=
  ⟨⟨by decide, toMatrix_diag22_det⟩,
    inv_double_gs_orthonormal 2 (by decide) diag22 malloc malloc toMatrix_diag22_det⟩

theorem zeroCol2_col0 : ∀ r, r < 2 → getEntry (zeroCol2 : Buf ℝ) 2 r 0 = 0 := by
  intro r hr
  have : r = 0 ∨ r = 1 := by omega
  rcases this with h | h <;> subst h <;> simp [getEntry, zeroCol2]

/-- C3, as the claim states it, fails: on the 2×2 matrix with rows (0, 1), (0, 1),
whose column 0 is zero, `inv_double_gs` divides by zero (the outcome `none`: NaN and
infinities are stored in the output matrices); the function has no error to return. -/
theorem inv_double_gs_zero_column_counterexample :
    (2 ≤ 2 ∧ ∀ r, r < 2 → getEntry (zeroCol2 : Buf ℝ) 2 r 0 = 0) ∧
    inv_double_gs Real.sqrt (zeroCol2 : Buf ℝ) 2 malloc malloc = none :=
  ⟨⟨Nat.le_refl 2, zeroCol2_col0⟩,
    inv_double_gs_zero_col Real.sqrt Real.sqrt_zero zeroCol2 malloc malloc
      (by decide : 0 < 2) zeroCol2_col0⟩

/-- C3, amended: for every n ≥ 2 and every real n×n matrix `a` with a zero column,
`inv_double_gs` signals no error: it divides by a zero norm, so that its output matrices
hold NaN or infinite entries (the outcome `none`). -/
theorem inv_double_gs_zero_column (n : Nat) (_ : 2 ≤ n) (a u b : Buf ℝ) (c : Nat)
    (hc : c < n) (h0 : ∀ r, r < n → getEntry a n r c = 0) :
    inv_double_gs Real.sqrt a n u b = none :=
  inv_double_gs_zero_col Real.sqrt Real.sqrt_zero a u b hc h0

theorem inv_double_gs_zero_column_witness :
    (2 ≤ 2 ∧ 1 < 2 ∧ ∀ r, r < 2 → getEntry (malloc : Buf ℝ) 2 r 1 = 0) ∧
    inv_double_gs Real.sqrt (malloc : Buf ℝ) 2 malloc malloc = none :=
  ⟨⟨Nat.le_refl 2, by decide, fun _ _ => rfl⟩,
    inv_double_gs_zero_column 2 (Nat.le_refl 2) malloc malloc malloc 1 (by decide)
      (fun _ _ => rfl)⟩

end Claims

section Claims2
variable {K : Type} [LinearOrderedField K]

/-- C4: for every n and all n×n matrices `m1`, `m2`, after `matrixMultiply(m1, m2, n)`
the first operand holds the standard product of the original operands,
`m1'[j,i] = Σ_k m1[j,k]·m2[k,i]` for all `0 ≤ i, j < n` (every sum is taken over the
original `m1`), and `m2` is unchanged. -/
theorem matrixMultiply_product (n : Nat) (m1 m2 : Buf K) :
    (∀ i j, i < n → j < n →
      getEntry (matrixMultiply m1 m2 n).1 n j i
        = ∑ k in Finset.range n, getEntry m1 n j k * getEntry m2 n k i) ∧
    (matrixMultiply m1 m2 n).2 = m2 :=
  ⟨fun _ _ hi hj => getEntry_matrixMultiply m1 m2 hj hi, rfl⟩

theorem matrixMultiply_product_witness :
    (0 < 2 ∧ 1 < 2) ∧
    getEntry (matrixMultiply (ex3142 : Buf ℚ) diag22 2).1 2 1 0
      = ∑ k in Finset.range 2, getEntry (ex3142 : Buf ℚ) 2 1 k * getEntry (diag22 : Buf ℚ) 2 k 0 :=
  ⟨⟨by decide, by decide⟩,
    (matrixMultiply_product 2 (ex3142 : Buf ℚ) diag22).1 0 1 (by decide) (by decide)⟩

/-- C5: for every n and every n×n matrix `m`, `transposeMatrix(transposeMatrix(m, n), n)`
equals `m` exactly, entry for entry: at every row and column below `n`, that is at every
one of the first `n * n` cells. -/
theorem transposeMatrix_involutive (n : Nat) (m : Buf K) :
    (∀ i j, i < n → j < n →
      getEntry (transposeMatrix (transposeMatrix m n).1 n).1 n i j = getEntry m n i j) ∧
    ∀ k, k < n * n → (transposeMatrix (transposeMatrix m n).1 n).1 k = m k := by
  have h : ∀ i j, i < n → j < n →
      getEntry (transposeMatrix (transposeMatrix m n).1 n).1 n i j = getEntry m n i j := by
    intro i j hi hj
    rw [getEntry_transposeMatrix _ hi hj, getEntry_transposeMatrix _ hj hi]
  refine ⟨h, ?_⟩
  intro k hk
  obtain ⟨i, j, hi, hj, rfl⟩ := flat_split hk
  exact h i j hi hj

theorem transposeMatrix_involutive_witness :
    (1 < 2 * 2) ∧
    (transposeMatrix (transposeMatrix (ex3142 : Buf ℚ) 2).1 2).1 1 = (ex3142 : Buf ℚ) 1 :=
  ⟨by decide, (transposeMatrix_involutive 2 (ex3142 : Buf ℚ)).2 1 (by decide)⟩

/-- C6: for every n and every n×n matrix `m`, `transposeMatrix(m, n)` returns a new
matrix `R` with `R[i,j] = m[j,i]` for all `0 ≤ i, j < n`, and `m` itself is left
unchanged. -/
theorem transposeMatrix_entries (n : Nat) (m : Buf K) :
    (∀ i j, i < n → j < n → getEntry (transposeMatrix m n).1 n i j = getEntry m n j i) ∧
    (transposeMatrix m n).2 = m :=
  ⟨fun _ _ hi hj => getEntry_transposeMatrix m hi hj, rfl⟩

theorem transposeMatrix_entries_witness :
    (0 < 2 ∧ 1 < 2) ∧
    getEntry (transposeMatrix (ex3142 : Buf ℚ) 2).1 2 0 1 = getEntry (ex3142 : Buf ℚ) 2 1 0 :=
  ⟨⟨by decide, by decide⟩,
    (transposeMatrix_entries 2 (ex3142 : Buf ℚ)).1 0 1 (by decide) (by decide)⟩

/-- C7: for every n > 0 (in particular n ∈ {1, 2, 10}), `inv_double_gs` applied to
`identity(n)` returns `u` and `b` both equal to `identity(n)`, exactly, hence within
every tolerance `ε ≥ 0` (such as 1e-9) of `checkEqualMatrix`. -/
theorem inv_double_gs_identity (n : Nat) (_ : 0 < n) (a u b : Buf ℝ) :
    ∃ u' b', inv_double_gs Real.sqrt (assignIdentityMatrix a n) n u b = some (u', b') ∧
      (∀ i j, i < n → j < n →
        getEntry u' n i j = (if i = j then 1 else 0) ∧
        getEntry b' n i j = (if i = j then 1 else 0)) ∧
      ∀ (ε : ℝ) (c : Buf ℝ), 0 ≤ ε →
        checkEqualMatrix u' (assignIdentityMatrix c n) n ε = 1 ∧
        checkEqualMatrix b' (assignIdentityMatrix c n) n ε = 1 := by
  obtain ⟨u', b', he, hu, hb⟩ := inv_double_gs_diag Real.sqrt real_sqrt_mul_self
    (assignIdentityMatrix a n) u b n (fun _ => 1) (fun _ _ => one_pos)
    (fun r c hr hc => getEntry_assignIdentityMatrix a hr hc)
  have hb' : ∀ i j, i < n → j < n → getEntry b' n i j = if i = j then 1 else 0 := by
    intro i j hi hj
    rw [hb i j hi hj]; simp
  refine ⟨u', b', he, fun i j hi hj => ⟨hu i j hi hj, hb' i j hi hj⟩, ?_⟩
  intro ε c hε
  constructor
  · apply checkEqualMatrix_of_entries _ _ _ _ hε
    intro i j hi hj
    rw [hu i j hi hj, getEntry_assignIdentityMatrix _ hi hj]
  · apply checkEqualMatrix_of_entries _ _ _ _ hε
    intro i j hi hj
    rw [hb' i j hi hj, getEntry_assignIdentityMatrix _ hi hj]

theorem inv_double_gs_identity_witness :
    (0 < 10) ∧
    ∃ u' b', inv_double_gs Real.sqrt (assignIdentityMatrix (malloc : Buf ℝ) 10) 10
        malloc malloc = some (u', b') ∧
      (∀ i j, i < 10 → j < 10 →
        getEntry u' 10 i j = (if i = j then 1 else 0) ∧
        getEntry b' 10 i j = (if i = j then 1 else 0)) ∧
      ∀ (ε : ℝ) (c : Buf ℝ), 0 ≤ ε →
        checkEqualMatrix u' (assignIdentityMatrix c 10) 10 ε = 1 ∧
        checkEqualMatrix b' (assignIdentityMatrix c 10) 10 ε = 1 :=
  ⟨by decide, inv_double_gs_identity 10 (by decide) malloc malloc malloc⟩

theorem isDiag_diag22 : IsDiag (diag22 : Buf ℝ) 2 (fun _ => 2) := by
  intro r c hr hc
  have h1 : r = 0 ∨ r = 1 := by omega
  have h2 : c = 0 ∨ c = 1 := by omega
  rcases h1 with h1 | h1 <;> rcases h2 with h2 | h2 <;> subst h1 <;> subst h2 <;>
    simp [getEntry, diag22]

/-- C8: for `a = diag(2, 2)` with `n = 2`, `inv_double_gs` returns `u = identity(2)` and
`b = diag(0.5, 0.5)`, exactly. -/
theorem inv_double_gs_diag22 (u b : Buf ℝ) :
    ∃ u' b', inv_double_gs Real.sqrt (diag22 : Buf ℝ) 2 u b = some (u', b') ∧
      (getEntry u' 2 0 0 = 1 ∧ getEntry u' 2 0 1 = 0 ∧
        getEntry u' 2 1 0 = 0 ∧ getEntry u' 2 1 1 = 1) ∧
      (getEntry b' 2 0 0 = 1 / 2 ∧ getEntry b' 2 0 1 = 0 ∧
        getEntry b' 2 1 0 = 0 ∧ getEntry b' 2 1 1 = 1 / 2) := by
  obtain ⟨u', b', he, hu, hb⟩ := inv_double_gs_diag Real.sqrt real_sqrt_mul_self
    (diag22 : Buf ℝ) u b 2 (fun _ => 2) (fun _ _ => two_pos) isDiag_diag22
  refine ⟨u', b', he, ⟨?_, ?_, ?_, ?_⟩, ⟨?_, ?_, ?_, ?_⟩⟩
  · rw [hu 0 0 (by decide) (by decide)]; simp
  · rw [hu 0 1 (by decide) (by decide)]; simp
  · rw [hu 1 0 (by decide) (by decide)]; simp
  · rw [hu 1 1 (by decide) (by decide)]; simp
  · rw [hb 0 0 (by decide) (by decide)]; simp
  · rw [hb 0 1 (by decide) (by decide)]; simp
  · rw [hb 1 0 (by decide) (by decide)]; simp
  · rw [hb 1 1 (by decide) (by decide)]; simp

/-- C9: for every n, every n×n matrix `m` and every `ε`, `checkOrthogonal(m, n, ε)`
returns 1 if and only if every column's dot product with itself lies in `[1-ε, 1+ε]` and
the dot product of every pair of distinct columns (in either order) lies in `[-ε, ε]`;
otherwise it returns 0. -/
theorem checkOrthogonal_spec (n : Nat) (m : Buf K) (ε : K) :
    (checkOrthogonal m n ε = 1 ↔
      (∀ i, i < n →
        1 - ε ≤ ∑ r in Finset.range n, getEntry m n r i * getEntry m n r i ∧
        ∑ r in Finset.range n, getEntry m n r i * getEntry m n r i ≤ 1 + ε) ∧
      (∀ i j, i < n → j < n → i ≠ j →
        -ε ≤ ∑ r in Finset.range n, getEntry m n r i * getEntry m n r j ∧
        ∑ r in Finset.range n, getEntry m n r i * getEntry m n r j ≤ ε)) ∧
    (checkOrthogonal m n ε ≠ 1 → checkOrthogonal m n ε = 0) := by
  refine ⟨?_, fun h => (checkOrthogonal_zero_or_one m n ε).resolve_left h⟩
  rw [checkOrthogonal_eq_one_iff]
  simp only [dotProductInMatrix_eq]
  constructor
  · intro h
    refine ⟨fun i hi => (h i hi).1, ?_⟩
    intro i j hi hj hne
    rcases Nat.lt_or_gt_of_ne hne with hlt | hgt
    · rw [dot_comm m n i j]; exact (h j hj).2 i hlt
    · exact (h i hi).2 j hgt
  · rintro ⟨h1, h2⟩ i hi
    exact ⟨h1 i hi, fun j hj => h2 i j hi (by omega) (by omega)⟩

theorem checkOrthogonal_spec_witness : checkOrthogonal (ex3142 : Buf ℚ) 2 0 = 0 :=
  (checkOrthogonal_spec 2 (ex3142 : Buf ℚ) 0).2 (fun h => by
    have h1 := (((checkOrthogonal_spec 2 (ex3142 : Buf ℚ) 0).1.mp h).1 0 (by decide)).2
    simp [Finset.sum_range_succ, getEntry, ex3142] at h1
    norm_num at h1)

/-- C10: for every n, all n×n matrices `m1`, `m2` and every `ε`,
`checkEqualMatrix(m1, m2, n, ε)` returns 1 if and only if `|m1[k] - m2[k]| ≤ ε` for
every one of the `n²` entries `k`; otherwise it returns 0. -/
theorem checkEqualMatrix_spec (n : Nat) (m1 m2 : Buf K) (ε : K) :
    (checkEqualMatrix m1 m2 n ε = 1 ↔ ∀ k, k < n * n → |m1 k - m2 k| ≤ ε) ∧
    (checkEqualMatrix m1 m2 n ε ≠ 1 → checkEqualMatrix m1 m2 n ε = 0) :=
  ⟨checkEqualMatrix_eq_one_iff m1 m2 n ε,
    fun h => (checkEqualMatrix_zero_or_one m1 m2 n ε).resolve_left h⟩

theorem checkEqualMatrix_spec_witness : checkEqualMatrix (ex3142 : Buf ℚ) diag22 2 1 = 0 :=
  (checkEqualMatrix_spec 2 (ex3142 : Buf ℚ) diag22 1).2 (fun h => by
    have h1 := (checkEqualMatrix_spec 2 (ex3142 : Buf ℚ) diag22 1).1.mp h 2 (by decide)
    norm_num [ex3142, diag22, abs_le] at h1)

end Claims2

section Invariants
variable {K : Type} [LinearOrderedField K]

/-- The engine is its column loop followed by the transpose and the multiplication. -/
theorem inv_double_gs_eq_columnLoop (sqrt : K → K) (a u b : Buf K) (n : Nat) :
    inv_double_gs sqrt a n u b =
      (columnLoop sqrt n n (copy_into a u n, assignIdentityMatrix b n)).bind fun s =>
        some (s.1, (matrixMultiply s.2 (transposeMatrix s.1 n).1 n).1) := rfl

/-- A pass either divides by zero or replaces column `col` as `orthogonalize_some` says. -/
theorem orthogonalize_cases (sqrt : K → K) (u b : Buf K) {n col : Nat} (hcol : col < n)
    (s : Buf K × Buf K) (h : orthogonalize sqrt u b n col = some s) :
    projNorm sqrt u n col ≠ 0 ∧
    (∀ r c, r < n → c < n → getEntry s.1 n r c =
      if c = col then projCol u u n col r / projNorm sqrt u n col else getEntry u n r c) ∧
    (∀ r c, r < n → c < n → getEntry s.2 n r c =
      if c = col then projCol u b n col r / projNorm sqrt u n col else getEntry b n r c) := by
  by_cases hz : projNorm sqrt u n col = 0
  · rw [orthogonalize_none sqrt u b hcol hz] at h
    cases h
  · obtain ⟨u2, b2, he, hu2, hb2⟩ := orthogonalize_some sqrt u b hcol hz
    rw [he] at h
    injection h with h
    subst h
    exact ⟨hz, hu2, hb2⟩

/-- A pass that does not divide by zero keeps `u = a × b`. -/
theorem prod_step (sqrt : K → K) (a u b : Buf K) {n col : Nat} (hcol : col < n)
    (hprod : ∀ r c, r < n → c < n →
      getEntry u n r c = ∑ j in Finset.range n, getEntry a n r j * getEntry b n j c)
    (s : Buf K × Buf K) (h : orthogonalize sqrt u b n col = some s) :
    ∀ r c, r < n → c < n →
      getEntry s.1 n r c = ∑ j in Finset.range n, getEntry a n r j * getEntry s.2 n j c := by
  obtain ⟨_, hu, hb⟩ := orthogonalize_cases sqrt u b hcol s h
  intro r c hr hc
  rw [hu r c hr hc]
  by_cases hcc : c = col
  · rw [if_pos hcc, projCol_prod a u b hcol hr hprod, Finset.sum_div]
    refine Finset.sum_congr rfl (fun j hj => ?_)
    rw [hb j c (Finset.mem_range.mp hj) hc, if_pos hcc, mul_div_assoc]
  · rw [if_neg hcc, hprod r c hr hc]
    refine Finset.sum_congr rfl (fun j hj => ?_)
    rw [hb j c (Finset.mem_range.mp hj) hc, if_neg hcc]

/-- The state `u = a`, `b = identity` satisfies `u = a × b`. -/
theorem prod_init (a u b : Buf K) (n : Nat) :
    ∀ r c, r < n → c < n →
      getEntry (copy_into a u n) n r c
        = ∑ j in Finset.range n, getEntry a n r j * getEntry (assignIdentityMatrix b n) n j c :=
  (gs_init a u b n).prod

/-- Any sequence of calls on columns below `n` that does not divide by zero keeps
`u = a × b`. -/
theorem prod_calls (sqrt : K → K) (a : Buf K) {n : Nat} (cols : List Nat)
    (hcols : ∀ col ∈ cols, col < n) :
    ∀ (s s' : Buf K × Buf K),
      (∀ r c, r < n → c < n →
        getEntry s.1 n r c = ∑ j in Finset.range n, getEntry a n r j * getEntry s.2 n j c) →
      orthogonalizeCalls sqrt n cols s = some s' →
      ∀ r c, r < n → c < n →
        getEntry s'.1 n r c = ∑ j in Finset.range n, getEntry a n r j * getEntry s'.2 n j c := by
  induction cols with
  | nil =>
    intro s s' hprod h
    simp only [orthogonalizeCalls] at h
    injection h with h
    subst h
    exact hprod
  | cons col cols ih =>
    intro s s' hprod h
    simp only [orthogonalizeCalls] at h
    cases h1 : orthogonalize sqrt s.1 s.2 n col with
    | none => rw [h1] at h; cases h
    | some s1 =>
      rw [h1, Option.some_bind] at h
      exact ih (fun c hc => hcols c (List.mem_cons_of_mem _ hc)) s1 s'
        (prod_step sqrt a s.1 s.2 (hcols col (List.mem_cons_self _ _)) hprod s1 h1) h

/-- The column loop, when it does not divide by zero, keeps `u = a × b`. -/
theorem prod_columnLoop (sqrt : K → K) (a : Buf K) {n : Nat} (k : Nat) (hk : k ≤ n) :
    ∀ (s s' : Buf K × Buf K),
      (∀ r c, r < n → c < n →
        getEntry s.1 n r c = ∑ j in Finset.range n, getEntry a n r j * getEntry s.2 n j c) →
      columnLoop sqrt n k s = some s' →
      ∀ r c, r < n → c < n →
        getEntry s'.1 n r c = ∑ j in Finset.range n, getEntry a n r j * getEntry s'.2 n j c := by
  induction k with
  | zero =>
    intro s s' hprod h
    simp only [columnLoop, forLoopM] at h
    injection h with h
    subst h
    exact hprod
  | succ k ih =>
    intro s s' hprod h
    unfold columnLoop at h
    rw [forLoopM] at h
    cases h0 : forLoopM k (fun i (s : Buf K × Buf K) =>
        (orthogonalize sqrt s.1 s.2 n i).bind fun s =>
        orthogonalize sqrt s.1 s.2 n i) s with
    | none => rw [h0] at h; cases h
    | some s0 =>
      rw [h0, Option.some_bind] at h
      have hp0 := ih (by omega) s s0 hprod h0
      cases h1 : orthogonalize sqrt s0.1 s0.2 n k with
      | none => rw [h1] at h; cases h
      | some s1 =>
        rw [h1, Option.some_bind] at h
        exact prod_step sqrt a s1.1 s1.2 (by omega : k < n)
          (prod_step sqrt a s0.1 s0.2 (by omega : k < n) hp0 s1 h1) s' h

end Invariants

section SecondPass
variable {K : Type} [LinearOrderedField K]

/-- A loop whose every iteration leaves the state `x` as it is leaves `x` as it is. -/
theorem forLoop_noop {σ : Type} (n : Nat) (F : Nat → σ → σ) (x : σ)
    (h : ∀ i, i < n → F i x = x) : forLoop n F x = x := by
  induction n with
  | zero => rfl
  | succ k ih =>
    rw [forLoop_succ, ih (fun i hi => h i (Nat.lt_succ_of_lt hi)), h k (Nat.lt_succ_self k)]

theorem setEntry_getEntry_self (x : Buf K) (n i j : Nat) :
    setEntry x n i j (getEntry x n i j) = x := by
  unfold setEntry getEntry
  exact Function.update_eq_self _ _

/-- A pass on a column that is already of unit norm and orthogonal to the columns before
it changes nothing. -/
theorem orthogonalize_noop (sqrt : K → K) (h1 : sqrt 1 = 1) (u b : Buf K) {n col : Nat}
    (hortho : OrthoCols u n (col + 1)) :
    orthogonalize sqrt u b n col = some (u, b) := by
  have hdp : ∀ i, i < col → colDot u n i col = 0 := by
    intro i hi
    rw [hortho i col (by omega) (by omega), if_neg (by omega)]
  have hsub : ∀ (x : Buf K) r, r < n →
      forLoop col (fun i (s : Buf K) =>
        updateSubtractVector s x n (dotProductInMatrix u n i col) i) (generateZeroVector n) r = 0 := by
    intro x r hr
    rw [subtract_apply u x n col r hr]
    refine Finset.sum_eq_zero (fun i hi => ?_)
    rw [hdp i (Finset.mem_range.mp hi), zero_mul]
  have hloop : ∀ x : Buf K,
      forLoop n (fun i w => setEntry w n i col (getEntry w n i col -
        forLoop col (fun i (s : Buf K) =>
          updateSubtractVector s x n (dotProductInMatrix u n i col) i)
          (generateZeroVector n) i)) x = x := by
    intro x
    apply forLoop_noop
    intro i hi
    rw [hsub x i hi, sub_zero, setEntry_getEntry_self]
  rw [orthogonalize_eq, hloop u, hloop b]
  have hsize : sqrt (colDot u n col col) = 1 := by
    rw [hortho col col (by omega) (by omega), if_pos rfl, h1]
  rw [normalize_of_ne sqrt u b n col (by rw [hsize]; exact one_ne_zero), hsize]
  have hdiv : ∀ x : Buf K,
      forLoop n (fun i w => setEntry w n i col (getEntry w n i col / 1)) x = x := by
    intro x
    apply forLoop_noop
    intro i _
    rw [div_one, setEntry_getEntry_self]
  rw [hdiv u, hdiv b]

/-- One pass on column `col` whose projected column is not zero, the columns before it
being orthonormal: the columns `0 .. col` of the result are orthonormal. -/
theorem ortho_step (sqrt : K → K) (hs : ∀ x : K, 0 < x → 0 < sqrt x ∧ sqrt x * sqrt x = x)
    (u b : Buf K) {n col : Nat} (hcol : col < n) (hortho : OrthoCols u n col)
    (hpos : 0 < ∑ r in Finset.range n, projCol u u n col r * projCol u u n col r) :
    ∃ u' b', orthogonalize sqrt u b n col = some (u', b') ∧ OrthoCols u' n (col + 1) := by
  obtain ⟨hsz, hsq⟩ := hs _ hpos
  have hsz' : 0 < projNorm sqrt u n col := hsz
  have hsq' : projNorm sqrt u n col * projNorm sqrt u n col
      = ∑ r in Finset.range n, projCol u u n col r * projCol u u n col r := hsq
  obtain ⟨u', b', he, hu, _⟩ := orthogonalize_some sqrt u b hcol (ne_of_gt hsz')
  refine ⟨u', b', he, ?_⟩
  have hcross : ∀ i, i < col → colDot u' n i col = 0 := by
    intro i hi
    unfold colDot
    have : ∀ r ∈ Finset.range n, getEntry u' n r i * getEntry u' n r col
        = getEntry u n r i * projCol u u n col r / projNorm sqrt u n col := by
      intro r hr
      have hr' := Finset.mem_range.mp hr
      rw [hu r i hr' (by omega), hu r col hr' hcol, if_neg (by omega), if_pos rfl,
        mul_div_assoc]
    rw [Finset.sum_congr rfl this, ← Finset.sum_div, projCol_ortho u hi hortho, zero_div]
  have hself : colDot u' n col col = 1 := by
    unfold colDot
    have : ∀ r ∈ Finset.range n, getEntry u' n r col * getEntry u' n r col
        = projCol u u n col r * projCol u u n col r
          / (projNorm sqrt u n col * projNorm sqrt u n col) := by
      intro r hr
      rw [hu r col (Finset.mem_range.mp hr) hcol, if_pos rfl, div_mul_div_comm]
    rw [Finset.sum_congr rfl this, ← Finset.sum_div, hsq']
    exact div_self (ne_of_gt hpos)
  have hold : ∀ i j, i < col → j < col → colDot u' n i j = colDot u n i j := by
    intro i j hi hj
    unfold colDot
    refine Finset.sum_congr rfl (fun r hr => ?_)
    have hr' := Finset.mem_range.mp hr
    rw [hu r i hr' (by omega), hu r j hr' (by omega), if_neg (by omega), if_neg (by omega)]
  intro i j hi hj
  rcases Nat.lt_succ_iff_lt_or_eq.mp hi with hi' | hi'
  · rcases Nat.lt_succ_iff_lt_or_eq.mp hj with hj' | hj'
    · rw [hold i j hi' hj']; exact hortho i j hi' hj'
    · subst hj'; rw [hcross i hi', if_neg (by omega)]
  · rcases Nat.lt_succ_iff_lt_or_eq.mp hj with hj' | hj'
    · subst hi'; rw [colDot_comm, hcross j hj', if_neg (by omega)]
    · subst hi'; subst hj'; rw [hself, if_pos rfl]

/-- The squared norm of the projected column is positive as soon as the norm `sqrt`
returns for it is not zero. -/
theorem projNorm_sq_pos_of_ne (sqrt : K → K) (hz : sqrt 0 = 0) (u : Buf K) (n col : Nat)
    (h : projNorm sqrt u n col ≠ 0) :
    0 < ∑ r in Finset.range n, projCol u u n col r * projCol u u n col r := by
  rcases (Finset.sum_nonneg (fun r (_ : r ∈ Finset.range n) =>
    mul_self_nonneg (projCol u u n col r))).lt_or_eq with h' | h'
  · exact h'
  · exfalso
    apply h
    unfold projNorm
    rw [← h', hz]

/-- The column loop with one pass per column and the column loop with two passes per
column go through the same states; the first `k` columns of the state after `k`
iterations are orthonormal. -/
theorem single_double_loop (sqrt : K → K)
    (hs : ∀ x : K, 0 < x → 0 < sqrt x ∧ sqrt x * sqrt x = x) (hz : sqrt 0 = 0)
    (h1 : sqrt 1 = 1) (s : Buf K × Buf K) (n k : Nat) (hk : k ≤ n) :
    columnLoop sqrt n k s = forLoopM k (fun i s => orthogonalize sqrt s.1 s.2 n i) s ∧
    ∀ s', forLoopM k (fun i s => orthogonalize sqrt s.1 s.2 n i) s = some s' →
      OrthoCols s'.1 n k := by
  induction k with
  | zero =>
    refine ⟨rfl, ?_⟩
    intro s' _ i j hi _
    exact absurd hi (Nat.not_lt_zero _)
  | succ k ih =>
    obtain ⟨heq, hort⟩ := ih (by omega)
    have hkn : k < n := by omega
    unfold columnLoop at heq ⊢
    rw [forLoopM, forLoopM, heq]
    cases h0 : forLoopM k (fun i (s : Buf K × Buf K) => orthogonalize sqrt s.1 s.2 n i) s with
    | none =>
      refine ⟨rfl, ?_⟩
      intro s' h; cases h
    | some s0 =>
      simp only [Option.some_bind]
      cases hp : orthogonalize sqrt s0.1 s0.2 n k with
      | none =>
        refine ⟨rfl, ?_⟩
        intro s' h; cases h
      | some s1 =>
        have hne := (orthogonalize_cases sqrt s0.1 s0.2 hkn s1 hp).1
        obtain ⟨u', b', he, ho⟩ := ortho_step sqrt hs s0.1 s0.2 hkn (hort s0 h0)
          (projNorm_sq_pos_of_ne sqrt hz s0.1 n k hne)
        rw [hp] at he
        injection he with he
        subst he
        refine ⟨?_, ?_⟩
        · simp only [Option.some_bind]
          exact orthogonalize_noop sqrt h1 u' b' ho
        · intro s' h
          injection h with h
          subst h
          exact ho

/-- In exact arithmetic the double-pass engine and the single-pass engine return the
same result on every input. -/
theorem inv_double_gs_eq_single (sqrt : K → K)
    (hs : ∀ x : K, 0 < x → 0 < sqrt x ∧ sqrt x * sqrt x = x) (hz : sqrt 0 = 0)
    (h1 : sqrt 1 = 1) (a u b : Buf K) (n : Nat) :
    inv_double_gs sqrt a n u b = inv_single_gs sqrt a n u b := by
  rw [inv_double_gs_eq_columnLoop,
    (single_double_loop sqrt hs hz h1 _ n n (Nat.le_refl n)).1]
  rfl

end SecondPass

section Traces

theorem mem_loopTrace (n : Nat) (body : Nat → List Access) (x : Access) :
    x ∈ loopTrace n body ↔ ∃ i, i < n ∧ x ∈ body i := by
  unfold loopTrace
  induction n with
  | zero => simp [forLoop]
  | succ k ih =>
    rw [forLoop_succ, List.mem_append, ih]
    constructor
    · rintro (⟨i, hi, hx⟩ | hx)
      · exact ⟨i, Nat.lt_succ_of_lt hi, hx⟩
      · exact ⟨k, Nat.lt_succ_self k, hx⟩
    · rintro ⟨i, hi, hx⟩
      rcases Nat.lt_succ_iff_lt_or_eq.mp hi with h | h
      · exact Or.inl ⟨i, h, hx⟩
      · subst h; exact Or.inr hx

theorem inRange_get {n i j : Nat} {m : BufId} (hm : m.len n = n * n) (hi : i < n)
    (hj : j < n) : (Access.get m i j).InRange n :=
  ⟨hi, hj, by rw [hm]; exact flat_lt hi hj⟩

theorem inRange_set {n i j : Nat} {m : BufId} (hm : m.len n = n * n) (hi : i < n)
    (hj : j < n) : (Access.set m i j).InRange n :=
  ⟨hi, hj, by rw [hm]; exact flat_lt hi hj⟩

theorem copy_into_trace_inRange {n : Nat} {src dst : BufId} (hs : src.len n = n * n)
    (hd : dst.len n = n * n) : ∀ x ∈ copy_into_trace src dst n, x.InRange n := by
  intro x hx
  simp only [copy_into_trace, mem_loopTrace, List.mem_cons, List.mem_singleton,
    List.not_mem_nil, or_false] at hx
  obtain ⟨i, hi, rfl | rfl⟩ := hx
  · show i < src.len n
    rw [hs]; exact hi
  · show i < dst.len n
    rw [hd]; exact hi

theorem generateZeroVector_trace_inRange {n : Nat} {v : BufId} (hv : v.len n = n) :
    ∀ x ∈ generateZeroVector_trace v n, x.InRange n := by
  intro x hx
  simp only [generateZeroVector_trace, mem_loopTrace, List.mem_singleton] at hx
  obtain ⟨i, hi, rfl⟩ := hx
  show i < v.len n
  rw [hv]; exact hi

theorem assignIdentityMatrix_trace_inRange {n : Nat} {m : BufId} (hm : m.len n = n * n) :
    ∀ x ∈ assignIdentityMatrix_trace m n, x.InRange n := by
  intro x hx
  simp only [assignIdentityMatrix_trace, mem_loopTrace, List.mem_singleton] at hx
  obtain ⟨i, hi, j, hj, rfl⟩ := hx
  exact inRange_set hm hi hj

theorem dotProductInMatrix_trace_inRange {n c1 c2 : Nat} {m : BufId} (hm : m.len n = n * n)
    (h1 : c1 < n) (h2 : c2 < n) : ∀ x ∈ dotProductInMatrix_trace m n c1 c2, x.InRange n := by
  intro x hx
  simp only [dotProductInMatrix_trace, mem_loopTrace, List.mem_cons, List.mem_singleton,
    List.not_mem_nil, or_false] at hx
  obtain ⟨i, hi, rfl | rfl⟩ := hx
  · exact inRange_get hm hi h1
  · exact inRange_get hm hi h2

theorem dotProductTwoMatrices_trace_inRange {n row col : Nat} {m1 m2 : BufId}
    (hm1 : m1.len n = n * n) (hm2 : m2.len n = n * n) (hr : row < n) (hc : col < n) :
    ∀ x ∈ dotProductTwoMatrices_trace m1 row m2 col n, x.InRange n := by
  intro x hx
  simp only [dotProductTwoMatrices_trace, mem_loopTrace, List.mem_cons, List.mem_singleton,
    List.not_mem_nil, or_false] at hx
  obtain ⟨i, hi, rfl | rfl⟩ := hx
  · exact inRange_get hm1 hr hi
  · exact inRange_get hm2 hi hc

theorem transposeMatrix_trace_inRange {n : Nat} {m newMat : BufId} (hm : m.len n = n * n)
    (hn : newMat.len n = n * n) : ∀ x ∈ transposeMatrix_trace m newMat n, x.InRange n := by
  intro x hx
  simp only [transposeMatrix_trace, mem_loopTrace, List.mem_cons, List.mem_singleton,
    List.not_mem_nil, or_false] at hx
  obtain ⟨i, hi, j, hj, rfl | rfl⟩ := hx
  · exact inRange_get hm hj hi
  · exact inRange_set hn hi hj

theorem matrixMultiply_trace_inRange {n : Nat} {m1 m2 finalMat : BufId}
    (hm1 : m1.len n = n * n) (hm2 : m2.len n = n * n) (hf : finalMat.len n = n * n) :
    ∀ x ∈ matrixMultiply_trace m1 m2 finalMat n, x.InRange n := by
  intro x hx
  simp only [matrixMultiply_trace, List.mem_append, mem_loopTrace, List.mem_singleton] at hx
  rcases hx with ⟨i, hi, j, hj, hx | rfl⟩ | hx
  · exact dotProductTwoMatrices_trace_inRange hm1 hm2 hj hi x hx
  · exact inRange_set hf hj hi
  · exact copy_into_trace_inRange hf hm1 x hx

theorem updateSubtractVector_trace_inRange {n col : Nat} {subtract u : BufId}
    (hs : subtract.len n = n) (hu : u.len n = n * n) (hc : col < n) :
    ∀ x ∈ updateSubtractVector_trace subtract u n col, x.InRange n := by
  intro x hx
  simp only [updateSubtractVector_trace, mem_loopTrace, List.mem_cons, List.mem_singleton,
    List.not_mem_nil, or_false] at hx
  obtain ⟨i, hi, rfl | rfl | rfl⟩ := hx
  · show i < subtract.len n
    rw [hs]; exact hi
  · exact inRange_get hu hi hc
  · show i < subtract.len n
    rw [hs]; exact hi

theorem normalize_trace_inRange {n col : Nat} {u b : BufId} (hu : u.len n = n * n)
    (hb : b.len n = n * n) (hc : col < n) :
    ∀ x ∈ normalize_trace u b n col, x.InRange n := by
  intro x hx
  simp only [normalize_trace, List.mem_append, mem_loopTrace, List.mem_cons,
    List.mem_singleton, List.not_mem_nil, or_false] at hx
  rcases hx with hx | ⟨i, hi, rfl | rfl | rfl | rfl⟩
  · exact dotProductInMatrix_trace_inRange hu hc hc x hx
  · exact inRange_get hu hi hc
  · exact inRange_set hu hi hc
  · exact inRange_get hb hi hc
  · exact inRange_set hb hi hc

theorem orthogonalize_trace_inRange {n col : Nat} {u b : BufId} (hu : u.len n = n * n)
    (hb : b.len n = n * n) (hc : col < n) :
    ∀ x ∈ orthogonalize_trace u b n col, x.InRange n := by
  intro x hx
  simp only [orthogonalize_trace, List.mem_append, mem_loopTrace, List.mem_cons,
    List.mem_singleton, List.not_mem_nil, or_false] at hx
  rcases hx with (((hx | hx) | ⟨i, hi, (hx | hx) | hx⟩) |
    ⟨i, hi, rfl | rfl | rfl | rfl | rfl | rfl⟩) | hx
  · exact generateZeroVector_trace_inRange rfl x hx
  · exact generateZeroVector_trace_inRange rfl x hx
  · exact dotProductInMatrix_trace_inRange hu (by omega) hc x hx
  · exact updateSubtractVector_trace_inRange rfl hu (by omega) x hx
  · exact updateSubtractVector_trace_inRange rfl hb (by omega) x hx
  · exact inRange_get hu hi hc
  · exact hi
  · exact inRange_set hu hi hc
  · exact inRange_get hb hi hc
  · exact hi
  · exact inRange_set hb hi hc
  · exact normalize_trace_inRange hu hb hc x hx

theorem inv_double_gs_trace_inRange (n : Nat) :
    ∀ x ∈ inv_double_gs_trace BufId.argA BufId.argU BufId.argB n, x.InRange n := by
  intro x hx
  simp only [inv_double_gs_trace, List.mem_append, mem_loopTrace] at hx
  rcases hx with (((hx | hx) | ⟨i, hi, hx | hx⟩) | hx) | hx
  · exact assignIdentityMatrix_trace_inRange rfl x hx
  · exact copy_into_trace_inRange rfl rfl x hx
  · exact orthogonalize_trace_inRange rfl rfl hi x hx
  · exact orthogonalize_trace_inRange rfl rfl hi x hx
  · exact transposeMatrix_trace_inRange rfl rfl x hx
  · exact matrixMultiply_trace_inRange rfl rfl rfl x hx

/-- Every `setEntry` of one pass is on column `col` of `u` or of `b`, at a row below `n`;
every direct store is to one of the two scratch vectors. -/
theorem orthogonalize_trace_writes (n col : Nat) :
    (∀ m i j, Access.set m i j ∈ orthogonalize_trace BufId.argU BufId.argB n col →
      (m = BufId.argU ∨ m = BufId.argB) ∧ j = col ∧ i < n) ∧
    (∀ m k, Access.store m k ∈ orthogonalize_trace BufId.argU BufId.argB n col →
      m = BufId.subtractBuf ∨ m = BufId.subtractTBuf) := by
  constructor
  · intro m i j hx
    simp only [orthogonalize_trace, normalize_trace, generateZeroVector_trace,
      dotProductInMatrix_trace, updateSubtractVector_trace, List.mem_append, mem_loopTrace,
      List.mem_cons, List.mem_singleton, List.not_mem_nil, or_false, reduceCtorEq,
      and_false, exists_false, false_or, or_false, Access.set.injEq, false_and] at hx
    rcases hx with ⟨i', hi', ⟨rfl, rfl, rfl⟩ | ⟨rfl, rfl, rfl⟩⟩ |
      ⟨i', hi', ⟨rfl, rfl, rfl⟩ | ⟨rfl, rfl, rfl⟩⟩
    · exact ⟨Or.inl rfl, rfl, hi'⟩
    · exact ⟨Or.inr rfl, rfl, hi'⟩
    · exact ⟨Or.inl rfl, rfl, hi'⟩
    · exact ⟨Or.inr rfl, rfl, hi'⟩
  · intro m k hx
    simp only [orthogonalize_trace, normalize_trace, generateZeroVector_trace,
      dotProductInMatrix_trace, updateSubtractVector_trace, List.mem_append, mem_loopTrace,
      List.mem_cons, List.mem_singleton, List.not_mem_nil, or_false, reduceCtorEq,
      and_false, exists_false, false_or, or_false, Access.store.injEq, false_and] at hx
    rcases hx with (⟨_, _, rfl, _⟩ | ⟨_, _, rfl, _⟩) | ⟨_, _, ⟨_, _, rfl, _⟩ | ⟨_, _, rfl, _⟩⟩
    · exact Or.inl rfl
    · exact Or.inr rfl
    · exact Or.inl rfl
    · exact Or.inr rfl

end Traces

section Examples

theorem gsU3_dp : dotProductInMatrix (gsU3 : Buf ℝ) 3 0 2 = 1 ∧
    dotProductInMatrix (gsU3 : Buf ℝ) 3 1 2 = 2 := by
  constructor <;> norm_num [dotProductInMatrix, forLoop, getEntry, gsU3]

theorem gsU3_projCol :
    projCol (gsU3 : Buf ℝ) gsU3 3 2 0 = 0 ∧ projCol (gsU3 : Buf ℝ) gsU3 3 2 1 = 0 ∧
    projCol (gsU3 : Buf ℝ) gsU3 3 2 2 = 2 := by
  refine ⟨?_, ?_, ?_⟩ <;>
    norm_num [projCol, colDot, Finset.sum_range_succ, getEntry, gsU3]

theorem gsB3_projCol :
    projCol (gsU3 : Buf ℝ) gsB3 3 2 0 = -2 ∧ projCol (gsU3 : Buf ℝ) gsB3 3 2 1 = -1 ∧
    projCol (gsU3 : Buf ℝ) gsB3 3 2 2 = 1 := by
  refine ⟨?_, ?_, ?_⟩ <;>
    norm_num [projCol, colDot, Finset.sum_range_succ, getEntry, gsU3, gsB3]

theorem gsU3_projNorm : projNorm Real.sqrt (gsU3 : Buf ℝ) 3 2 = 2 := by
  unfold projNorm
  rw [Finset.sum_range_succ, Finset.sum_range_succ, Finset.sum_range_succ,
    Finset.sum_range_zero, gsU3_projCol.1, gsU3_projCol.2.1, gsU3_projCol.2.2]
  rw [show (0 + 0 * 0 + 0 * 0 + 2 * 2 : ℝ) = 2 * 2 by norm_num]
  exact Real.sqrt_mul_self (by norm_num)

theorem gsU3_orthoCols : OrthoCols (gsU3 : Buf ℝ) 3 2 := by
  intro i j hi hj
  have h1 : i = 0 ∨ i = 1 := by omega
  have h2 : j = 0 ∨ j = 1 := by omega
  rcases h1 with h1 | h1 <;> rcases h2 with h2 | h2 <;> subst h1 <;> subst h2 <;>
    norm_num [colDot, Finset.sum_range_succ, getEntry, gsU3]

theorem gsU3_det : (toMatrix (gsU3 : Buf ℝ) 3).det ≠ 0 := by
  rw [Matrix.det_fin_three]
  norm_num [toMatrix, getEntry, gsU3]

end Examples

section Claims3
variable {K : Type} [LinearOrderedField K]

/-- C11: for every n and every n×n matrix `m`, `checkEqualMatrix(m, m, n, 0)` returns 1;
and for every `ε ≥ 0`, if `m'` differs from `m` in one of the `n²` entries by more than
`ε` in absolute value, then `checkEqualMatrix(m, m', n, ε)` returns 0. -/
theorem checkEqualMatrix_boundary (n : Nat) (m : Buf K) :
    checkEqualMatrix m m n 0 = 1 ∧
    ∀ (ε : K) (m' : Buf K) (k : Nat), 0 ≤ ε → k < n * n → ε < |m k - m' k| →
      checkEqualMatrix m m' n ε = 0 := by
  constructor
  · rw [checkEqualMatrix_eq_one_iff]
    intro k _
    rw [sub_self, abs_zero]
  · intro ε m' k _ hk hd
    refine (checkEqualMatrix_zero_or_one m m' n ε).resolve_left (fun h => ?_)
    exact absurd ((checkEqualMatrix_eq_one_iff m m' n ε).mp h k hk) (not_le.mpr hd)

theorem checkEqualMatrix_boundary_witness :
    ((0 : ℚ) ≤ 1 ∧ 2 < 2 * 2 ∧
      (1 : ℚ) < |(ex3142 : Buf ℚ) 2 - Function.update (ex3142 : Buf ℚ) 2 6 2|) ∧
    checkEqualMatrix (ex3142 : Buf ℚ) (Function.update (ex3142 : Buf ℚ) 2 6) 2 1 = 0 :=
  ⟨⟨by norm_num, by decide, by norm_num [ex3142, abs_lt]⟩,
    (checkEqualMatrix_boundary 2 (ex3142 : Buf ℚ)).2 1 (Function.update ex3142 2 6) 2
      (by norm_num) (by decide) (by norm_num [ex3142, abs_lt])⟩

/-- C13: for every n, `0 ≤ col < n` and matrices `u`, `b`, one call
`orthogonalize(u, b, n, col)` sets column `col` of `u` to
`(u[:,col] - Σ_{i<col} dp_i·u[:,i]) / size` and column `col` of `b` to
`(b[:,col] - Σ_{i<col} dp_i·b[:,i]) / size`, where every `dp_i` is the dot product of
columns `i` and `col` of the `u` the call receives, and `size` is the Euclidean norm of
the new, not yet normalised, column of `u`; the same `dp_i` and the same `size` serve
`u` and `b`. The division is the division of the code (`fdiv`): with `size = 0` every
cell of the column is a division by zero. -/
theorem orthogonalize_column (sqrt : K → K) (n col : Nat) (u b : Buf K) (hcol : col < n) :
    (∀ (x : Buf K) r, projCol u x n col r
      = getEntry x n r col
        - ∑ i in Finset.range col, dotProductInMatrix u n i col * getEntry x n r i) ∧
    projNorm sqrt u n col
      = sqrt (∑ r in Finset.range n, projCol u u n col r * projCol u u n col r) ∧
    ∀ r, r < n →
      (orthogonalize sqrt u b n col).map (fun s => getEntry s.1 n r col)
        = fdiv (projCol u u n col r) (projNorm sqrt u n col) ∧
      (orthogonalize sqrt u b n col).map (fun s => getEntry s.2 n r col)
        = fdiv (projCol u b n col r) (projNorm sqrt u n col) := by
  refine ⟨fun x r => ?_, rfl, fun r hr => ?_⟩
  · unfold projCol
    simp only [dotProductInMatrix_eq_colDot]
  · by_cases hz : projNorm sqrt u n col = 0
    · rw [orthogonalize_none sqrt u b hcol hz]
      simp [fdiv, hz]
    · obtain ⟨u', b', he, hu, hb⟩ := orthogonalize_some sqrt u b hcol hz
      rw [he]
      simp only [Option.map_some', fdiv, hz, if_false]
      rw [hu r col hr hcol, hb r col hr hcol, if_pos rfl, if_pos rfl]
      exact ⟨rfl, rfl⟩

theorem orthogonalize_column_witness :
    (2 < 3) ∧
    (dotProductInMatrix (gsU3 : Buf ℝ) 3 0 2 = 1 ∧
      dotProductInMatrix (gsU3 : Buf ℝ) 3 1 2 = 2) ∧
    ((orthogonalize Real.sqrt (gsU3 : Buf ℝ) gsB3 3 2).map (fun s => getEntry s.1 3 0 2)
        = some 0 ∧
      (orthogonalize Real.sqrt (gsU3 : Buf ℝ) gsB3 3 2).map (fun s => getEntry s.1 3 1 2)
        = some 0 ∧
      (orthogonalize Real.sqrt (gsU3 : Buf ℝ) gsB3 3 2).map (fun s => getEntry s.1 3 2 2)
        = some 1) ∧
    ((orthogonalize Real.sqrt (gsU3 : Buf ℝ) gsB3 3 2).map (fun s => getEntry s.2 3 0 2)
        = some (-1) ∧
      (orthogonalize Real.sqrt (gsU3 : Buf ℝ) gsB3 3 2).map (fun s => getEntry s.2 3 1 2)
        = some (-1 / 2) ∧
      (orthogonalize Real.sqrt (gsU3 : Buf ℝ) gsB3 3 2).map (fun s => getEntry s.2 3 2 2)
        = some (1 / 2)) := by
  have e : ∀ x : ℝ, fdiv x 2 = some (x / 2) := fun x => by simp [fdiv]
  refine ⟨by decide, gsU3_dp, ⟨?_, ?_, ?_⟩, ⟨?_, ?_, ?_⟩⟩
  · rw [((orthogonalize_column Real.sqrt 3 2 (gsU3 : Buf ℝ) gsB3 (by decide)).2.2 0
      (by decide)).1, gsU3_projCol.1, gsU3_projNorm, e]
    norm_num
  · rw [((orthogonalize_column Real.sqrt 3 2 (gsU3 : Buf ℝ) gsB3 (by decide)).2.2 1
      (by decide)).1, gsU3_projCol.2.1, gsU3_projNorm, e]
    norm_num
  · rw [((orthogonalize_column Real.sqrt 3 2 (gsU3 : Buf ℝ) gsB3 (by decide)).2.2 2
      (by decide)).1, gsU3_projCol.2.2, gsU3_projNorm, e]
    norm_num
  · rw [((orthogonalize_column Real.sqrt 3 2 (gsU3 : Buf ℝ) gsB3 (by decide)).2.2 0
      (by decide)).2, gsB3_projCol.1, gsU3_projNorm, e]
    norm_num
  · rw [((orthogonalize_column Real.sqrt 3 2 (gsU3 : Buf ℝ) gsB3 (by decide)).2.2 1
      (by decide)).2, gsB3_projCol.2.1, gsU3_projNorm, e]
  · rw [((orthogonalize_column Real.sqrt 3 2 (gsU3 : Buf ℝ) gsB3 (by decide)).2.2 2
      (by decide)).2, gsB3_projCol.2.2, gsU3_projNorm, e]

end Claims3

section Claims4
variable {K : Type} [LinearOrderedField K]

theorem toMatrix_mul_of_prod (a u b : Buf K) (n : Nat)
    (h : ∀ r c, r < n → c < n →
      getEntry u n r c = ∑ j in Finset.range n, getEntry a n r j * getEntry b n j c) :
    toMatrix u n = toMatrix a n * toMatrix b n := by
  ext i j
  have := h i j i.isLt j.isLt
  rw [Finset.sum_range] at this
  simp only [Matrix.mul_apply, toMatrix, Matrix.of_apply]
  exact this

theorem toMatrix_transpose_mul_self (u : Buf K) (n : Nat) (h : OrthoCols u n n) :
    (toMatrix u n).transpose * toMatrix u n = 1 := by
  ext i j
  have := h i j i.isLt j.isLt
  unfold colDot at this
  rw [Finset.sum_range] at this
  simp only [Matrix.mul_apply, Matrix.transpose_apply, toMatrix, Matrix.of_apply,
    Matrix.one_apply, Fin.ext_iff]
  exact this

/-- With the invariant for all `n` columns, `r = uᵗ × a` is the triangular factor:
`a = u × r` and `b` is the inverse of `r`. -/
theorem factorisation_of_inv (a u b : Buf K) (n : Nat) (inv : GsInv a u b n n) :
    ∃ r : Matrix (Fin n) (Fin n) K,
      toMatrix a n = toMatrix u n * r ∧ toMatrix b n * r = 1 ∧ r * toMatrix b n = 1 := by
  have h1 := toMatrix_transpose_mul_self u n inv.ortho
  have h2 : toMatrix u n * (toMatrix u n).transpose = 1 := (Matrix.mul_eq_one_comm).mp h1
  have h3 := toMatrix_mul_of_prod a u b n inv.prod
  have h4 : (toMatrix u n).transpose * toMatrix a n * toMatrix b n = 1 := by
    rw [Matrix.mul_assoc, ← h3, h1]
  refine ⟨(toMatrix u n).transpose * toMatrix a n, ?_, (Matrix.mul_eq_one_comm).mp h4, h4⟩
  rw [← Matrix.mul_assoc, h2, Matrix.one_mul]

/-- C14: starting from `u = a` and `b = identity(n)`, after any sequence of
`orthogonalize(u, b, n, col)` calls with `0 ≤ col < n` in which no normalisation divides
by zero, `u = a × b` holds; in particular it holds at the end of the column loop of
`inv_double_gs`, just before the transpose and the multiplication; and for an invertible
`a` that loop does reach its end, with `a = u × r` for a matrix `r` whose inverse is
`b`. -/
theorem orthogonalize_keeps_product (n : Nat) (a u b : Buf ℝ) :
    (∀ (cols : List Nat) (s : Buf ℝ × Buf ℝ), (∀ col ∈ cols, col < n) →
      orthogonalizeCalls Real.sqrt n cols (copy_into a u n, assignIdentityMatrix b n) = some s →
      ∀ r c, r < n → c < n →
        getEntry s.1 n r c = ∑ j in Finset.range n, getEntry a n r j * getEntry s.2 n j c) ∧
    (∀ s : Buf ℝ × Buf ℝ,
      columnLoop Real.sqrt n n (copy_into a u n, assignIdentityMatrix b n) = some s →
      (inv_double_gs Real.sqrt a n u b
        = some (s.1, (matrixMultiply s.2 (transposeMatrix s.1 n).1 n).1)) ∧
      ∀ r c, r < n → c < n →
        getEntry s.1 n r c = ∑ j in Finset.range n, getEntry a n r j * getEntry s.2 n j c) ∧
    ((toMatrix a n).det ≠ 0 →
      ∃ s, columnLoop Real.sqrt n n (copy_into a u n, assignIdentityMatrix b n) = some s ∧
        ∃ r : Matrix (Fin n) (Fin n) ℝ,
          toMatrix a n = toMatrix s.1 n * r ∧ toMatrix s.2 n * r = 1 ∧
          r * toMatrix s.2 n = 1) := by
  refine ⟨?_, ?_, ?_⟩
  · intro cols s hcols h
    exact prod_calls Real.sqrt a cols hcols _ s (prod_init a u b n) h
  · intro s h
    refine ⟨?_, prod_columnLoop Real.sqrt a n (Nat.le_refl n) _ s (prod_init a u b n) h⟩
    rw [inv_double_gs_eq_columnLoop, h]
    rfl
  · intro hdet
    obtain ⟨u', b', hl, inv⟩ :=
      gs_loop Real.sqrt real_sqrt_spec a _ _ hdet (gs_init a u b n) n (Nat.le_refl n)
    exact ⟨(u', b'), hl, factorisation_of_inv a u' b' n inv⟩

theorem orthogonalize_keeps_product_witness :
    ((toMatrix (diag22 : Buf ℝ) 2).det ≠ 0) ∧
    ∃ s, columnLoop Real.sqrt 2 2
        (copy_into (diag22 : Buf ℝ) malloc 2, assignIdentityMatrix malloc 2) = some s ∧
      (∀ r c, r < 2 → c < 2 →
        getEntry s.1 2 r c
          = ∑ j in Finset.range 2, getEntry (diag22 : Buf ℝ) 2 r j * getEntry s.2 2 j c) ∧
      ∃ r : Matrix (Fin 2) (Fin 2) ℝ,
        toMatrix (diag22 : Buf ℝ) 2 = toMatrix s.1 2 * r ∧ toMatrix s.2 2 * r = 1 ∧
        r * toMatrix s.2 2 = 1 :=
  ⟨toMatrix_diag22_det,
    ((orthogonalize_keeps_product 2 (diag22 : Buf ℝ) malloc malloc).2.2
      toMatrix_diag22_det).elim fun s hs =>
      ⟨s, hs.1,
        ((orthogonalize_keeps_product 2 (diag22 : Buf ℝ) malloc malloc).2.1 s hs.1).2,
        hs.2⟩⟩

/-- C15: for every invertible real n×n matrix `a` and every `col` with `0 ≤ col < n`, in
exact real arithmetic, once the loop of `inv_double_gs` has processed the columns
`0 .. col` (both passes each), the columns `0 .. col` of the working matrix `u` are
mutually orthonormal. -/
theorem columnLoop_orthonormal (n : Nat) (a u b : Buf ℝ) (col : Nat)
    (hdet : (toMatrix a n).det ≠ 0) (hcol : col < n) :
    ∃ s, columnLoop Real.sqrt n (col + 1) (copy_into a u n, assignIdentityMatrix b n)
        = some s ∧
      ∀ i j, i ≤ col → j ≤ col →
        ∑ r in Finset.range n, getEntry s.1 n r i * getEntry s.1 n r j
          = if i = j then 1 else 0 := by
  obtain ⟨u', b', hl, inv⟩ :=
    gs_loop Real.sqrt real_sqrt_spec a _ _ hdet (gs_init a u b n) (col + 1) (by omega)
  exact ⟨(u', b'), hl, fun i j hi hj => inv.ortho i j (by omega) (by omega)⟩

theorem columnLoop_orthonormal_witness :
    ((toMatrix (gsU3 : Buf ℝ) 3).det ≠ 0 ∧ 2 < 3) ∧
    ∃ s, columnLoop Real.sqrt 3 (2 + 1)
        (copy_into (gsU3 : Buf ℝ) malloc 3, assignIdentityMatrix malloc 3) = some s ∧
      ∀ i j, i ≤ 2 → j ≤ 2 →
        ∑ r in Finset.range 3, getEntry s.1 3 r i * getEntry s.1 3 r j
          = if i = j then 1 else 0 :=
  ⟨⟨gsU3_det, by decide⟩,
    columnLoop_orthonormal 3 (gsU3 : Buf ℝ) malloc malloc 2 gsU3_det (by decide)⟩

/-- C18: for every invertible real n×n matrix `a`, at the end of the column loop of
`inv_double_gs` (before the final multiplication) the transform matrix `b` is upper
triangular (`b[r,c] = 0` for `r > c`) with strictly positive diagonal entries. -/
theorem columnLoop_upper_triangular (n : Nat) (a u b : Buf ℝ)
    (hdet : (toMatrix a n).det ≠ 0) :
    ∃ s, columnLoop Real.sqrt n n (copy_into a u n, assignIdentityMatrix b n) = some s ∧
      (inv_double_gs Real.sqrt a n u b
        = some (s.1, (matrixMultiply s.2 (transposeMatrix s.1 n).1 n).1)) ∧
      (∀ r c, r < n → c < n → c < r → getEntry s.2 n r c = 0) ∧
      ∀ c, c < n → 0 < getEntry s.2 n c c := by
  obtain ⟨u', b', hl, inv⟩ :=
    gs_loop Real.sqrt real_sqrt_spec a _ _ hdet (gs_init a u b n) n (Nat.le_refl n)
  refine ⟨(u', b'), hl, ?_, inv.upper, inv.diag⟩
  rw [inv_double_gs_eq_columnLoop]
  have hl' : columnLoop Real.sqrt n n (copy_into a u n, assignIdentityMatrix b n)
      = some (u', b') := hl
  rw [hl']
  rfl

theorem columnLoop_upper_triangular_witness :
    ((toMatrix (diag22 : Buf ℝ) 2).det ≠ 0) ∧
    ∃ s, columnLoop Real.sqrt 2 2
        (copy_into (diag22 : Buf ℝ) malloc 2, assignIdentityMatrix malloc 2) = some s ∧
      (inv_double_gs Real.sqrt (diag22 : Buf ℝ) 2 malloc malloc
        = some (s.1, (matrixMultiply s.2 (transposeMatrix s.1 2).1 2).1)) ∧
      (∀ r c, r < 2 → c < 2 → c < r → getEntry s.2 2 r c = 0) ∧
      ∀ c, c < 2 → 0 < getEntry s.2 2 c c :=
  ⟨toMatrix_diag22_det,
    columnLoop_upper_triangular 2 (diag22 : Buf ℝ) malloc malloc toMatrix_diag22_det⟩

end Claims4

section Claims5
variable {K : Type} [LinearOrderedField K]

/-- C16: for every n, `0 ≤ col < n` and matrices `u`, `b`, `orthogonalize(u, b, n, col)`
changes only column `col` of `u` and column `col` of `b`: for every row `r` and every
column `c ≠ col`, `u[r,c]` and `b[r,c]` are the same before and after the call. Whatever
the values, a division by zero included, every `setEntry` of the call is on column `col`
of `u` or of `b`, and every other store is to a scratch vector. -/
theorem orthogonalize_only_column (sqrt : K → K) (n col : Nat) (u b : Buf K)
    (hcol : col < n) :
    (∀ s, orthogonalize sqrt u b n col = some s →
      ∀ r c, r < n → c < n → c ≠ col →
        getEntry s.1 n r c = getEntry u n r c ∧ getEntry s.2 n r c = getEntry b n r c) ∧
    (∀ m i j, Access.set m i j ∈ orthogonalize_trace BufId.argU BufId.argB n col →
      (m = BufId.argU ∨ m = BufId.argB) ∧ j = col ∧ i < n) ∧
    (∀ m k, Access.store m k ∈ orthogonalize_trace BufId.argU BufId.argB n col →
      m = BufId.subtractBuf ∨ m = BufId.subtractTBuf) :=
  ⟨fun s h => orthogonalize_frame sqrt u b s.1 s.2 hcol h,
    (orthogonalize_trace_writes n col).1, (orthogonalize_trace_writes n col).2⟩

theorem orthogonalize_only_column_witness :
    (0 < 2) ∧
    ∃ s, orthogonalize Real.sqrt (diag22 : Buf ℝ) diag22 2 0 = some s ∧
      getEntry s.1 2 1 1 = getEntry (diag22 : Buf ℝ) 2 1 1 ∧
      getEntry s.2 2 1 1 = getEntry (diag22 : Buf ℝ) 2 1 1 :=
  ⟨by decide,
    (orthogonalize_diag Real.sqrt real_sqrt_mul_self (diag22 : Buf ℝ) diag22
      (fun _ => 2) (fun _ => 2) isDiag_diag22 isDiag_diag22 (by decide : 0 < 2)
      two_pos).elim fun u' h => h.elim fun b' h =>
      ⟨(u', b'), h.1,
        (orthogonalize_only_column Real.sqrt 2 0 (diag22 : Buf ℝ) diag22 (by decide)).1
          (u', b') h.1 1 1 (by decide) (by decide) (by decide)⟩⟩

/-- C17: in exact real arithmetic, if the columns `0 .. col-1` of `u` are mutually
orthonormal and column `col` of `u` is nonzero after projection, then the second call
`orthogonalize(u, b, n, col)` immediately following the first is a no-op: every
projection `dp_i` it computes is 0, the `size` it computes is 1, and it leaves `u` and
`b` entirely unchanged; so the double-pass engine computes the same `u` and `b` as the
single-pass engine. -/
theorem second_pass_noop (n : Nat) :
    (∀ (col : Nat) (u b : Buf ℝ), col < n → OrthoCols u n col →
      (∃ r, r < n ∧ projCol u u n col r ≠ 0) →
      ∃ s, orthogonalize Real.sqrt u b n col = some s ∧
        (∀ i, i < col → dotProductInMatrix s.1 n i col = 0) ∧
        Real.sqrt (dotProductInMatrix s.1 n col col) = 1 ∧
        orthogonalize Real.sqrt s.1 s.2 n col = some s) ∧
    (∀ a u b : Buf ℝ, inv_double_gs Real.sqrt a n u b = inv_single_gs Real.sqrt a n u b) := by
  refine ⟨?_, fun a u b =>
    inv_double_gs_eq_single Real.sqrt real_sqrt_spec Real.sqrt_zero Real.sqrt_one a u b n⟩
  intro col u b hcol hortho hnz
  obtain ⟨r, hr, hne⟩ := hnz
  have hpos : 0 < ∑ r in Finset.range n, projCol u u n col r * projCol u u n col r :=
    lt_of_lt_of_le (mul_self_pos.mpr hne)
      (Finset.single_le_sum (f := fun r => projCol u u n col r * projCol u u n col r)
        (fun i _ => mul_self_nonneg _) (Finset.mem_range.mpr hr))
  obtain ⟨u', b', he, ho⟩ := ortho_step Real.sqrt real_sqrt_spec u b hcol hortho hpos
  refine ⟨(u', b'), he, ?_, ?_, orthogonalize_noop Real.sqrt Real.sqrt_one u' b' ho⟩
  · intro i hi
    rw [dotProductInMatrix_eq_colDot, ho i col (by omega) (by omega), if_neg (by omega)]
  · rw [dotProductInMatrix_eq_colDot, ho col col (by omega) (by omega), if_pos rfl,
      Real.sqrt_one]

theorem gsU3_projCol_ne : ∃ r, r < 3 ∧ projCol (gsU3 : Buf ℝ) gsU3 3 2 r ≠ 0 :=
  ⟨2, by decide, by rw [gsU3_projCol.2.2]; exact two_ne_zero⟩

theorem second_pass_noop_witness :
    (2 < 3 ∧ OrthoCols (gsU3 : Buf ℝ) 3 2 ∧
      ∃ r, r < 3 ∧ projCol (gsU3 : Buf ℝ) gsU3 3 2 r ≠ 0) ∧
    (dotProductInMatrix (gsU3 : Buf ℝ) 3 0 2 = 1 ∧
      dotProductInMatrix (gsU3 : Buf ℝ) 3 1 2 = 2) ∧
    ∃ s, orthogonalize Real.sqrt (gsU3 : Buf ℝ) gsB3 3 2 = some s ∧
      (∀ i, i < 2 → dotProductInMatrix s.1 3 i 2 = 0) ∧
      Real.sqrt (dotProductInMatrix s.1 3 2 2) = 1 ∧
      orthogonalize Real.sqrt s.1 s.2 3 2 = some s :=
  ⟨⟨by decide, gsU3_orthoCols, gsU3_projCol_ne⟩, gsU3_dp,
    (second_pass_noop 3).1 2 (gsU3 : Buf ℝ) gsB3 (by decide) gsU3_orthoCols
      gsU3_projCol_ne⟩

/-- C19: for every n > 0, every `getEntry`/`setEntry` access and every scratch-vector or
direct access performed during `inv_double_gs(a, n, u, b)` is in range: row and column
indices satisfy `0 ≤ i, j < n` with the flat index `i·n + j` below `n²`, the length of
the matrix buffers, and every direct index is below the length of its buffer (`n` for
a scratch vector, `n²` for a matrix); no out-of-range access is reachable. -/
theorem inv_double_gs_accesses_in_range (n : Nat) (_ : 0 < n) :
    (∀ x ∈ inv_double_gs_trace BufId.argA BufId.argU BufId.argB n, x.InRange n) ∧
    (∀ m i j,
      (Access.get m i j ∈ inv_double_gs_trace BufId.argA BufId.argU BufId.argB n ∨
        Access.set m i j ∈ inv_double_gs_trace BufId.argA BufId.argU BufId.argB n) →
      i < n ∧ j < n ∧ i * n + j < m.len n) ∧
    (∀ m k,
      (Access.load m k ∈ inv_double_gs_trace BufId.argA BufId.argU BufId.argB n ∨
        Access.store m k ∈ inv_double_gs_trace BufId.argA BufId.argU BufId.argB n) →
      k < m.len n) := by
  refine ⟨inv_double_gs_trace_inRange n, ?_, ?_⟩
  · rintro m i j (h | h)
    · exact inv_double_gs_trace_inRange n _ h
    · exact inv_double_gs_trace_inRange n _ h
  · rintro m k (h | h)
    · exact inv_double_gs_trace_inRange n _ h
    · exact inv_double_gs_trace_inRange n _ h

theorem inv_double_gs_accesses_in_range_witness :
    (0 < 2) ∧
    ∀ x ∈ inv_double_gs_trace BufId.argA BufId.argU BufId.argB 2, x.InRange 2 :=
  ⟨by decide, (inv_double_gs_accesses_in_range 2 (by decide)).1⟩

end Claims5

end Hw1
